import Mathlib

/-!
Verification of the health-center assignment heuristic and its solution
verifier, as a shallow embedding.

Sources embedded (names kept where Lean allows):
  * `heuristic.py` : `build_initial_solution` with its inner `backtrack`
    procedure, split here into `backtrack` / `btLoop` / `tryCand` with an
    explicit `SearchState` record that is threaded through exactly the way
    the Python code mutates its arrays (each forward mutation and each undo
    is performed explicitly on the state value).
  * `verifier.py` : `verify` (steps 0 through the final verdict) together
    with the shapes produced by `parse_instance` / `parse_solution`.
  * `main.py` : the solution serialization shape of `_write_solution`
    (1-based centers, sorted 1-based community lists, recomputed objective).

Numeric model: populations, capacities and loads are integers (`ℤ`), as in
Python.  Distance values are rationals (`ℚ`); the Euclidean matrix built by
`Distances` contains square roots, so the development is parametric in the
distance function `dist : ℕ → ℕ → ℚ`, exactly the way `backtrack` only ever
reads `dist[i, j]` from the prebuilt matrix.  Squared Euclidean distances
(`sqDist`) are used to connect concrete witness tables to real coordinates.
Python's `round` (round-half-to-even) is modelled by `pyRound`.
-/

set_option maxRecDepth 100000

namespace HealthCenter

attribute [local semireducible] Rat.sub Rat.add Rat.mul Rat.inv

/-- Python's banker's rounding `round(q)` on an exact rational. -/
def pyRound (q : ℚ) : ℤ :=
  let fl : ℤ := ⌊q⌋
  let r : ℚ := q - fl
  if r < 1/2 then fl
  else if 1/2 < r then fl + 1
  else if fl % 2 = 0 then fl else fl + 1

/-- An instance as used by `build_initial_solution`: `M` from the header,
the uniform capacity `nodes[0]["capacity"]`, and the population column of
`nodes` in file order (0-based).  `N = pops.length`. -/
structure Inst where
  M : ℕ
  cap : ℤ
  pops : List ℤ
deriving Repr, DecidableEq

/-- Fixed data consulted by the inner `backtrack` procedure: the distance
matrix, populations, capacity, the center bound `M` and the two fairness
thresholds `alpha` and `beta` computed before the search starts. -/
structure Params where
  dist : ℕ → ℕ → ℚ
  pops : List ℤ
  cap : ℤ
  M : ℕ
  alpha : ℤ
  beta : ℚ

/-- The mutable search state of `build_initial_solution`: the arrays `x`,
`load`, `residual` (length `N`), the assignment dict `y` (keys in insertion
order), the `open_centers` list, and the running distance extrema. -/
structure SearchState where
  x : List ℤ
  load : List ℤ
  residual : List ℤ
  y : List (ℕ × ℕ)
  openCenters : List ℕ
  dMin : Option ℚ
  dMax : Option ℚ
deriving Repr, DecidableEq

/-- `y[(i, j)] = 1` on a Python dict: inserting an existing key keeps its
position, a new key goes to the end. -/
def insertKey (y : List (ℕ × ℕ)) (k : ℕ × ℕ) : List (ℕ × ℕ) :=
  if k ∈ y then y else y ++ [k]

/-- The candidate list built for community `j` (heuristic.py lines 46-50):
a stable sort of the currently open centers by ascending `dist[i, j]`,
then the synthetic "open a new center at `j`" candidate when
`len(open_centers) < M`.  Python's `list.sort` is stable, and any two
stable sorts of the same list under the same total preorder agree, so the
stable `List.insertionSort` produces the same list. -/
def candidateList (P : Params) (j : ℕ) (opened : List ℕ) : List ℕ :=
  (List.insertionSort (fun a b => P.dist a j ≤ P.dist b j) opened) ++
    (if opened.length < P.M then [j] else [])

/-- The result `(x_best, y_best)` captured at a successful leaf. -/
structure BTResult where
  x : List ℤ
  y : List (ℕ × ℕ)
deriving Repr, DecidableEq

/-- The `i == j and x[i] == 0` test deciding whether this candidate opens a
new center (heuristic.py line 53). -/
def openingOf (s : SearchState) (j i : ℕ) : Bool :=
  i = j ∧ s.x.getD i 0 = 0

/-- Opening a new center (heuristic.py lines 54-57): `x[i] = 1`, append to
`open_centers`, `residual[i] = cap`. -/
def openStep (P : Params) (i : ℕ) (s : SearchState) : SearchState :=
  { s with x := s.x.set i 1,
           openCenters := s.openCenters ++ [i],
           residual := s.residual.set i P.cap }

/-- Reverting a tentative opening after a failed capacity check
(heuristic.py lines 60-62): pop `open_centers` and clear `x[i]`.  Note that
`residual[i]` is left untouched here. -/
def closeStep (i : ℕ) (s : SearchState) : SearchState :=
  { s with openCenters := s.openCenters.dropLast, x := s.x.set i 0 }

/-- The tentative commit (heuristic.py lines 65-73): record `y[(i, j)]`,
debit the residual, credit the load, and fold `dist[i, j]` into the running
distance extrema. -/
def commitStep (P : Params) (j i : ℕ) (s : SearchState) : SearchState :=
  let pj : ℤ := P.pops.getD j 0
  let dj : ℚ := P.dist i j
  { s with y := insertKey s.y (i, j),
           residual := s.residual.set i (s.residual.getD i 0 - pj),
           load := s.load.set i (s.load.getD i 0 + pj),
           dMin := some (match s.dMin with | none => dj | some v => min v dj),
           dMax := some (match s.dMax with | none => dj | some v => max v dj) }

/-- The distance-fairness pruning test `d_max - d_min <= beta`
(heuristic.py line 76), read off the just-updated extrema (both set at this
point). -/
def dGapPass (P : Params) (s : SearchState) : Bool :=
  s.dMax.getD 0 - s.dMin.getD 0 ≤ P.beta

/-- The workload-fairness pruning test (heuristic.py lines 77-79):
`max(w_vals) - min(w_vals) <= alpha`, with gap `0` for no open centers. -/
def loadGapPass (P : Params) (s : SearchState) : Bool :=
  let wVals : List ℤ := s.openCenters.map (fun c => s.load.getD c 0)
  wVals.max?.getD 0 - wVals.min?.getD 0 ≤ P.alpha

/-- The undo block (heuristic.py lines 82-90): restore the extrema, credit
the residual back, debit the load, drop `y[(i, j)]`, and when this
candidate had opened a center, pop it, zero its residual and clear `x[i]`. -/
def undoStep (P : Params) (opening : Bool) (j i : ℕ) (oldMin oldMax : Option ℚ)
    (s : SearchState) : SearchState :=
  let pj : ℤ := P.pops.getD j 0
  let t1 : SearchState :=
    { s with dMin := oldMin, dMax := oldMax,
             residual := s.residual.set i (s.residual.getD i 0 + pj),
             load := s.load.set i (s.load.getD i 0 - pj),
             y := s.y.erase (i, j) }
  if opening then
    { t1 with openCenters := t1.openCenters.dropLast,
              residual := t1.residual.set i 0,
              x := t1.x.set i 0 }
  else t1

/-- One iteration of the `for i in candidates` loop body of `backtrack`
(heuristic.py lines 51-91) for community `j` and candidate `i`, with
`recurse` standing for the call `backtrack(idx + 1)`.  Every mutation and
every undo of the Python body is performed on the state in source order. -/
def tryCand (P : Params) (recurse : SearchState → Option BTResult × SearchState)
    (j i : ℕ) (s : SearchState) : Option BTResult × SearchState :=
  let opening := openingOf s j i
  let s1 := if opening then openStep P i s else s
  if s1.residual.getD i 0 < P.pops.getD j 0 then
    (none, if opening then closeStep i s1 else s1)
  else
    let s3 := commitStep P j i s1
    if dGapPass P s3 then
      if loadGapPass P s3 then
        match recurse s3 with
        | (some r, s4) => (some r, s4)
        | (none, s4) => (none, undoStep P opening j i s.dMin s.dMax s4)
      else (none, undoStep P opening j i s.dMin s.dMax s3)
    else (none, undoStep P opening j i s.dMin s.dMax s3)

/-- The `for i in candidates` loop of `backtrack`: try candidates in order,
short-circuiting on the first success; return `False` (here `none`) when
the list is exhausted. -/
def btLoop (P : Params) (recurse : SearchState → Option BTResult × SearchState)
    (j : ℕ) : List ℕ → SearchState → Option BTResult × SearchState
  | [], s => (none, s)
  | i :: cs, s =>
      match tryCand P recurse j i s with
      | (some r, s') => (some r, s')
      | (none, s') => btLoop P recurse j cs s'

/-- `backtrack(idx)` of heuristic.py, with the suffix of `communities` still
to place as the recursion argument.  At the leaf it records
`x_best = x[:]`, `y_best = dict(y)`. -/
def backtrack (P : Params) : List ℕ → SearchState → Option BTResult × SearchState
  | [], s => (some ⟨s.x, s.y⟩, s)
  | j :: rest, s => btLoop P (backtrack P rest) j (candidateList P j s.openCenters) s

/-- All community pairs `(i, j)` with `j < i < N`, the iteration domain of
the `beta` computations in heuristic.py line 20 and verifier.py line 111. -/
def lowerPairs (N : ℕ) : List (ℕ × ℕ) :=
  (List.range N).flatMap (fun i => (List.range i).map (fun j => (i, j)))

/-- The maximum pairwise distance `max(dist[i, j] for i in range(N) for j in
range(i))`, with default 0 on the empty range (the code raises there, which
`buildInitialSolution` models by erroring out before reading this). -/
def maxPairDist (dist : ℕ → ℕ → ℚ) (N : ℕ) : ℚ :=
  ((lowerPairs N).map (fun p => dist p.1 p.2)).max?.getD 0

/-- `alpha = round(total_pop / (5 * M))` (heuristic.py line 19). -/
def alphaOf (inst : Inst) : ℤ :=
  pyRound ((inst.pops.sum : ℚ) / (5 * inst.M))

/-- `beta = max(dist[i, j] ...) / 5` (heuristic.py line 20). -/
def betaOf (dist : ℕ → ℕ → ℚ) (N : ℕ) : ℚ :=
  maxPairDist dist N / 5

/-- The community processing order (heuristic.py line 22): indices sorted by
population descending; Python's stable sort keeps equal populations in
ascending index order, as does the stable `insertionSort` with this total
preorder. -/
def communityOrder (pops : List ℤ) : List ℕ :=
  List.insertionSort (fun a b => pops.getD b 0 ≤ pops.getD a 0)
    (List.range pops.length)

/-- Exceptions escaping `build_initial_solution`: the explicit
`ValueError("No feasible solution found by backtracking.")`, and the
pre-search crashes (IndexError on `nodes[0]` when `N = 0`, ZeroDivisionError
in `total_pop / (5 * M)` when `M = 0`, ValueError from `max()` of an empty
sequence in the `beta` line when `N < 2`). -/
inductive BuildError where
  | noFeasibleSolution : BuildError
  | preprocessingError : BuildError
deriving Repr, DecidableEq

/-- The initial all-zero search state. -/
def initState (N : ℕ) : SearchState :=
  ⟨List.replicate N 0, List.replicate N 0, List.replicate N 0, [], [], none, none⟩

/-- The search parameters `build_initial_solution` assembles before calling
`backtrack`. -/
def paramsOf (inst : Inst) (dist : ℕ → ℕ → ℚ) : Params :=
  ⟨dist, inst.pops, inst.cap, inst.M, alphaOf inst, betaOf dist inst.pops.length⟩

/-- `build_initial_solution(instance)` (heuristic.py lines 9-96), parametric
in the distance matrix `dist` standing for `Distances(instance)`. -/
def buildInitialSolution (inst : Inst) (dist : ℕ → ℕ → ℚ) :
    Except BuildError BTResult :=
  let N := inst.pops.length
  if N = 0 then .error .preprocessingError
  else if inst.M = 0 then .error .preprocessingError
  else if N < 2 then .error .preprocessingError
  else
    match backtrack (paramsOf inst dist) (communityOrder inst.pops) (initState N) with
    | (some r, _) => .ok r
    | (none, _) => .error .noFeasibleSolution

/-- Squared Euclidean distance between coordinate rows `i` and `j`, used to
certify that concrete rational witness tables agree with the Euclidean
matrix `Distances` builds from the node coordinates. -/
def sqDist (coords : List (ℚ × ℚ)) (i j : ℕ) : ℚ :=
  let a := coords.getD i (0, 0)
  let b := coords.getD j (0, 0)
  (a.1 - b.1) ^ 2 + (a.2 - b.2) ^ 2

/-! ## The solution verifier (`verifier.py`) -/

/-- The terminal report printed by `verify`: one of the early `ERROR` returns
(steps 0-2 of the numbered checks), or one of the four outcomes of the final
`if`/`elif` cascade. -/
inductive Verdict where
  | tooManyCenters (found limit : ℕ) : Verdict
  | orphanAssignment (extra : List ℕ) : Verdict
  | coverageMismatch (missing dup : List ℕ) : Verdict
  | capacityExceeded (center : ℕ) (load : ℤ) : Verdict
  | objectiveMismatch : Verdict
  | workloadGapExceeded : Verdict
  | distanceGapExceeded : Verdict
  | ok : Verdict
deriving Repr, DecidableEq

/-- Uncaught Python exceptions inside `verify`: `KeyError` from `pop[j]` /
`dist[i, j]` / `assign[i]` on a missing key, and `ValueError` from
`min()` / `max()` on an empty sequence. -/
inductive VerifyCrash where
  | keyError : VerifyCrash
  | emptySeqError : VerifyCrash
  | zeroDivisionError : VerifyCrash
deriving Repr, DecidableEq

/-- A parsed solution file as returned by `parse_solution`: the `deployed`
list (one entry per matching line, duplicates kept), the `assignment` dict
as an association list in key-insertion order, and the reported objective. -/
structure ParsedSolution where
  deployed : List ℕ
  assignPairs : List (ℕ × List ℕ)
  objRep : ℚ
deriving Repr, DecidableEq

/-- `pop[j]` of the verifier: the population dict parsed from the instance
file is keyed by the 1-based node indices `1..N`. -/
def popLookup (inst : Inst) (j : ℕ) : Option ℤ :=
  if 1 ≤ j ∧ j ≤ inst.pops.length then some (inst.pops.getD (j - 1) 0) else none

/-- `dist[(i, j)]` of the verifier: the distance dict parsed from the
instance file is keyed by 1-based index pairs; its entries agree with the
0-based matrix used by the heuristic shifted by one (both are the Euclidean
distances of the same node coordinates). -/
def distLookup (inst : Inst) (dist : ℕ → ℕ → ℚ) (i j : ℕ) : Option ℚ :=
  if 1 ≤ i ∧ i ≤ inst.pops.length ∧ 1 ≤ j ∧ j ≤ inst.pops.length then
    some (dist (i - 1) (j - 1))
  else none

/-- `assign[i]` on the parsed dict. -/
def assignLookup (sol : ParsedSolution) (i : ℕ) : Option (List ℕ) :=
  (sol.assignPairs.find? (fun p => p.1 = i)).map Prod.snd

/-- Lift a dict access, raising `KeyError` on a missing key. -/
def getKey {α : Type} (o : Option α) : Except VerifyCrash α :=
  match o with
  | none => .error .keyError
  | some v => .ok v

/-- `sum(pop[j] for j in assign[i])` for one deployed center. -/
def centerLoad (inst : Inst) (sol : ParsedSolution) (i : ℕ) :
    Except VerifyCrash ℤ := do
  let lst ← getKey (assignLookup sol i)
  let ps ← lst.mapM (fun j => getKey (popLookup inst j))
  return ps.sum

/-- The capacity loop (verifier.py lines 88-92): returns the first deployed
center whose recomputed load exceeds `C`, if any. -/
def capacityViolation (inst : Inst) (sol : ParsedSolution) :
    List ℕ → Except VerifyCrash (Option (ℕ × ℤ))
  | [] => .ok none
  | i :: rest => do
      let load ← centerLoad inst sol i
      if inst.cap < load then return some (i, load)
      else capacityViolation inst sol rest

/-- The `(i, j)` pairs enumerated by `for i in deployed: for j in assign[i]`
(verifier.py lines 96-97 and 109). -/
def deployedPairs (sol : ParsedSolution) :
    Except VerifyCrash (List (ℕ × ℕ)) := do
  let ls ← sol.deployed.mapM (fun i => do
    let lst ← getKey (assignLookup sol i)
    return lst.map (fun j => (i, j)))
  return ls.flatten

/-- `alpha` as recomputed by the verifier (verifier.py line 105):
`round(sum(pop.values()) / (5 * m))`; `pop.values()` iterates the parsed
node populations in file order. -/
def verifyAlpha (inst : Inst) : ℤ :=
  pyRound ((inst.pops.sum : ℚ) / (5 * inst.M))

/-- The 1-based pair domain of the verifier's `beta` line:
`for i in range(1, n + 1) for j in range(1, i)`. -/
def lowerPairs1 (n : ℕ) : List (ℕ × ℕ) :=
  (List.range' 1 n).flatMap (fun i => (List.range' 1 (i - 1)).map (fun j => (i, j)))

/-- `beta` as recomputed by the verifier (verifier.py line 111), reading the
1-based distance dict. -/
def verifyBeta (dist : ℕ → ℕ → ℚ) (n : ℕ) : ℚ :=
  (((lowerPairs1 n).map (fun p => dist (p.1 - 1) (p.2 - 1))).max?.getD 0) / 5

/-- The uniqueness-and-completeness check (verifier.py lines 75-85): fail
when the number of distinct assigned indices differs from `n`, reporting
`missing = sorted(set(range(1, n + 1)) - set(all_assigned))` and
`dup = sorted(set(c for c in all_assigned if all_assigned.count(c) > 1))`. -/
def coverageCheck (n : ℕ) (allAssigned : List ℕ) : Option (List ℕ × List ℕ) :=
  if allAssigned.dedup.length ≠ n then
    some ((List.range' 1 n).filter (fun c => ¬ c ∈ allAssigned),
      List.insertionSort (fun a b => a ≤ b)
        (allAssigned.dedup.filter (fun c => 1 < allAssigned.count c)))
  else none

/-- Lift `min()` / `max()` on a possibly-empty sequence, raising
`ValueError` (here `emptySeqError`) on the empty one, as Python does. -/
def nonEmptySeq {α : Type} (o : Option α) : Except VerifyCrash α :=
  match o with
  | none => .error .emptySeqError
  | some v => .ok v

/-- Steps 3-7 of `verify` (verifier.py lines 94-121): recompute the
objective, the workload extrema and `alpha`, the distance extrema and
`beta`, then run the final `if`/`elif` cascade. -/
def verifyMetrics (inst : Inst) (dist : ℕ → ℕ → ℚ) (sol : ParsedSolution) :
    Except VerifyCrash Verdict := do
  let n := inst.pops.length
  let m := inst.M
  -- 3. objective value recomputation
  let pairs ← deployedPairs sol
  let objVals ← pairs.mapM (fun p => do
    let pj ← getKey (popLookup inst p.2)
    let dij ← getKey (distLookup inst dist p.1 p.2)
    return (pj : ℚ) * dij)
  let obj : ℚ := objVals.foldl max 0
  -- 4. workload fairness
  let workloads ← sol.deployed.mapM (centerLoad inst sol)
  let wlMin ← nonEmptySeq workloads.min?
  let wlMax ← nonEmptySeq workloads.max?
  if 5 * m = 0 then throw .zeroDivisionError
  let alpha := verifyAlpha inst
  -- 5. distance fairness metrics
  let dists ← pairs.mapM (fun p => getKey (distLookup inst dist p.1 p.2))
  let dMin ← nonEmptySeq dists.min?
  let dMax ← nonEmptySeq dists.max?
  if n < 2 then throw .emptySeqError
  let beta := verifyBeta dist n
  if 1/1000000 < |obj - sol.objRep| then
    return .objectiveMismatch
  else if (alpha : ℚ) + 1/1000000 < ((wlMax - wlMin : ℤ) : ℚ) then
    return .workloadGapExceeded
  else if beta + 1/1000000 < dMax - dMin then
    return .distanceGapExceeded
  else
    return .ok

/-- `verify(instance_file, solution_file)` (verifier.py lines 61-121), after
parsing: the instance contributes `n`, `m`, `C`, the distance dict and the
population dict; the solution contributes `deployed`, `assign`, `obj_rep`.
Returns the terminal report, or the uncaught exception the Python code
raises. -/
def verify (inst : Inst) (dist : ℕ → ℕ → ℚ) (sol : ParsedSolution) :
    Except VerifyCrash Verdict := do
  let n := inst.pops.length
  let m := inst.M
  -- 0. basic sanity checks
  if m < sol.deployed.length then
    return .tooManyCenters sol.deployed.length m
  let keys := sol.assignPairs.map Prod.fst
  let extra := List.insertionSort (fun a b => a ≤ b)
    (keys.filter (fun k => ¬ k ∈ sol.deployed)).dedup
  if extra ≠ [] then
    return .orphanAssignment extra
  -- 1. uniqueness and completeness
  let allAssigned := (sol.assignPairs.map Prod.snd).flatten
  match coverageCheck n allAssigned with
  | some md => return .coverageMismatch md.1 md.2
  | none =>
    -- 2. capacity feasibility
    let capv ← capacityViolation inst sol sol.deployed
    match capv with
    | some iv => return .capacityExceeded iv.1 iv.2
    | none => verifyMetrics inst dist sol

/-! ## Serialization of a search result (`main.py`, `_write_solution` shape) -/

/-- The communities assigned to center `i` in a search result, 0-based, in
`y` insertion order. -/
def assignedTo (r : BTResult) (i : ℕ) : List ℕ :=
  (r.y.filter (fun p => p.1 = i)).map Prod.snd

/-- The recomputed objective `max(pop[j] * dist[i, j])` over the assigned
pairs, folded from `0` the way verifier.py lines 95-98 accumulate it. -/
def recomputedObjective (dist : ℕ → ℕ → ℚ) (pops : List ℤ) (r : BTResult) : ℚ :=
  (r.y.map (fun p => ((pops.getD p.2 0 : ℤ) : ℚ) * dist p.1 p.2)).foldl max 0

/-- Serializing a search result into the §6 solution shape, as
`_write_solution` lays it out and `parse_solution` reads it back: one line
per open center in ascending order (1-based), each with its communities
sorted ascending (1-based), and an objective line carrying the recomputed
objective. -/
def serializeSolution (N : ℕ) (dist : ℕ → ℕ → ℚ) (pops : List ℤ)
    (r : BTResult) : ParsedSolution :=
  let dep0 := (List.range N).filter (fun i => r.x.getD i 0 = 1)
  { deployed := dep0.map (fun i => i + 1),
    assignPairs := dep0.map (fun i =>
      (i + 1, (List.insertionSort (fun a b => a ≤ b) (assignedTo r i)).map
        (fun j => j + 1))),
    objRep := recomputedObjective dist pops r }

/-! ## The candidate ordering claimed by the spec (for comparison) -/

/-- Modelled from the spec: the §4.3 candidate list, "all currently open
centers sorted by ascending `distance(i, j)` (ties broken by ascending
center index)", then the synthetic new-center candidate when fewer than `M`
centers are open.  This is the comparison definition for the tie-break
claim; `candidateList` above is the one translated from the code. -/
def candidateListSpec (P : Params) (j : ℕ) (opened : List ℕ) : List ℕ :=
  (List.insertionSort (fun a b =>
    P.dist a j < P.dist b j ∨ (P.dist a j = P.dist b j ∧ a ≤ b)) opened) ++
    (if opened.length < P.M then [j] else [])

/-- Modelled from the spec: `backtrack` with the spec's tie-break rule in
place of the code's candidate list, all else identical. -/
def backtrackSpec (P : Params) : List ℕ → SearchState → Option BTResult × SearchState
  | [], s => (some ⟨s.x, s.y⟩, s)
  | j :: rest, s =>
      btLoop P (backtrackSpec P rest) j (candidateListSpec P j s.openCenters) s

/-- Modelled from the spec: `build_initial_solution` with the spec's
tie-break rule. -/
def buildInitialSolutionSpec (inst : Inst) (dist : ℕ → ℕ → ℚ) :
    Except BuildError BTResult :=
  let N := inst.pops.length
  if N = 0 then .error .preprocessingError
  else if inst.M = 0 then .error .preprocessingError
  else if N < 2 then .error .preprocessingError
  else
    match backtrackSpec (paramsOf inst dist) (communityOrder inst.pops) (initState N) with
    | (some r, _) => .ok r
    | (none, _) => .error .noFeasibleSolution

/-! ## Concrete witness data

`instW` is a 5-community instance on a line: node coordinates
`(0,0), (6,0), (3,0), (500,0), (-500,0)` (so all pairwise Euclidean
distances are the integers `|x_i - x_j|`), populations `51, 52, 1, 50, 50`,
uniform capacity `60`, and `M = 4`.  Community `2` sits at the midpoint of
communities `0` and `1`, equidistant from both. -/

/-- The x-coordinates of the witness instance (all on the x-axis). -/
def coordW : List (ℚ × ℚ) := [(0, 0), (6, 0), (3, 0), (500, 0), (-500, 0)]

/-- The Euclidean distance matrix of `coordW` (exact, since the points are
collinear): `|x_i - x_j|`. -/
def distW (i j : ℕ) : ℚ :=
  |(coordW.getD i (0, 0)).1 - (coordW.getD j (0, 0)).1|

/-- The witness instance. -/
def instW : Inst := ⟨4, 60, [51, 52, 1, 50, 50]⟩

/-- A 2-community instance whose first community (population 5) exceeds the
uniform capacity 4, so the backtracking search exhausts its space: both
nodes sit at the origin, making every pairwise distance zero. -/
def instC5 : Inst := ⟨2, 4, [5, 3]⟩

/-- The distance matrix of an instance whose nodes all share one
coordinate: identically zero. -/
def distZero : ℕ → ℕ → ℚ := fun _ _ => 0

deriving instance DecidableEq for Except

/-- The result `build_initial_solution` returns on `instW` (community 2
ends up on center 1; the equality is checked by evaluation in the
witnesses). -/
def resW : BTResult :=
  ⟨[1, 1, 0, 1, 1], [(1, 1), (0, 0), (3, 3), (4, 4), (1, 2)]⟩

/-- An instance file with a single community, parseable by the verifier
(`"1 1"` header and one node line with population 7). -/
def instOne : Inst := ⟨1, 100, [7]⟩

/-- A 2-community instance used to exercise the verifier on out-of-range
assigned indices. -/
def instTwo : Inst := ⟨2, 100, [7, 8]⟩

/-- A well-formed solution file for `instOne`: center 1 deployed, community
1 assigned to it, reported objective 0. -/
def solOne : ParsedSolution := ⟨[1], [(1, [1])], 0⟩

/-- A solution file for `instTwo` assigning the out-of-range index 3:
`all_assigned = [1, 3]` has 2 = n distinct values, so the coverage check
passes, and the verifier then evaluates `pop[3]`. -/
def solTwo : ParsedSolution := ⟨[1], [(1, [1, 3])], 0⟩

/-! ## Search-state invariants and restoration -/

/-- What a failed candidate (or a failed whole call) actually restores:
every component of the state except that `residual` is only guaranteed to
agree on the currently open centers — a failed tentative opening leaves
`residual[i] = cap` behind for the re-closed center (heuristic.py lines
60-62 never reset it), and a failed deeper branch can leave such stale
entries at any center that is closed in `s`. -/
def Restored (s t : SearchState) : Prop :=
  t.x = s.x ∧ t.load = s.load ∧ t.y = s.y ∧ t.openCenters = s.openCenters ∧
    t.dMin = s.dMin ∧ t.dMax = s.dMax ∧
    t.residual.length = s.residual.length ∧
    ∀ i ∈ s.openCenters, t.residual.getD i 0 = s.residual.getD i 0

/-- The reachability invariant of the search state at every `backtrack`
entry, relative to the list `done` of communities already placed. -/
structure Inv (P : Params) (N : ℕ) (done : List ℕ) (s : SearchState) : Prop where
  hxlen : s.x.length = N
  hloadlen : s.load.length = N
  hreslen : s.residual.length = N
  hopen_sub : ∀ i ∈ s.openCenters, i ∈ done
  hopen_lt : ∀ i ∈ s.openCenters, i < N
  hopen_nodup : s.openCenters.Nodup
  hopen_le : s.openCenters.length ≤ P.M
  hx : ∀ i, s.x.getD i 0 = if i ∈ s.openCenters then 1 else 0
  hy_fst : ∀ p ∈ s.y, p.1 ∈ s.openCenters
  hy_snd_nodup : (s.y.map Prod.snd).Nodup
  hy_snd : ∀ j, (∃ i, (i, j) ∈ s.y) ↔ j ∈ done
  hself : ∀ i ∈ s.openCenters, (i, i) ∈ s.y
  hload : ∀ i, s.load.getD i 0 =
    ((s.y.filter (fun p => p.1 = i)).map (fun p => P.pops.getD p.2 0)).sum
  hres : ∀ i ∈ s.openCenters, s.residual.getD i 0 = P.cap - s.load.getD i 0
  hres_nonneg : ∀ i ∈ s.openCenters, 0 ≤ s.residual.getD i 0
  hdmin : s.dMin = (s.y.map (fun p => P.dist p.1 p.2)).min?
  hdmax : s.dMax = (s.y.map (fun p => P.dist p.1 p.2)).max?

/-- The two admissibility conditions that were checked (and passed) on a
state right before recursing into it, phrased pairwise. -/
def ChecksOf (P : Params) (s : SearchState) : Prop :=
  (∀ a ∈ s.y, ∀ b ∈ s.y, P.dist a.1 a.2 - P.dist b.1 b.2 ≤ P.beta) ∧
    (∀ i1 ∈ s.openCenters, ∀ i2 ∈ s.openCenters,
      s.load.getD i1 0 - s.load.getD i2 0 ≤ P.alpha)

/-- A good search outcome: the recorded `(x_best, y_best)` is the snapshot
of a state that satisfies the reachability invariant with all of `dAll`
placed and whose final admissibility checks passed. -/
def GoodResult (P : Params) (N : ℕ) (dAll : List ℕ) (r : BTResult) : Prop :=
  ∃ sf : SearchState, Inv P N dAll sf ∧ ChecksOf P sf ∧ r.x = sf.x ∧ r.y = sf.y

/-- The committed state a candidate `i` for community `j` leads to when its
capacity check passes: open first if `i` is fresh, then commit. -/
def commitState (P : Params) (j i : ℕ) (s : SearchState) : SearchState :=
  commitStep P j i (if openingOf s j i then openStep P i s else s)

/-- Declarative solvability of the remaining community list from a state:
there is a sequence of in-order candidate choices whose capacity checks and
admissibility prunings all pass and that places every community.  This is
the "a feasible branch exists under the fixed search order" predicate. -/
inductive Solvable (P : Params) : List ℕ → SearchState → Prop where
  | nil (s : SearchState) : Solvable P [] s
  | cons (j : ℕ) (rest : List ℕ) (s : SearchState) (i : ℕ)
      (hi : i ∈ candidateList P j s.openCenters)
      (hcap : ¬ ((if openingOf s j i then openStep P i s else s).residual.getD i 0
        < P.pops.getD j 0))
      (hd : dGapPass P (commitState P j i s))
      (hl : loadGapPass P (commitState P j i s))
      (hs : Solvable P rest (commitState P j i s)) : Solvable P (j :: rest) s

/-- The open centers of a search result, read off the 0/1 vector `x_best`
the way `_write_solution` does (`x[i] > 0.5` on exact 0/1 values is
`x[i] = 1`). -/
def openCentersOf (N : ℕ) (r : BTResult) : List ℕ :=
  (List.range N).filter (fun i => r.x.getD i 0 = 1)

/-- The workload of center `i` in a search result: the population sum of the
communities `y_best` assigns to it. -/
def loadOf (pops : List ℤ) (r : BTResult) (i : ℕ) : ℤ :=
  ((r.y.filter (fun p => p.1 = i)).map (fun p => pops.getD p.2 0)).sum

/-! ## List utilities -/

theorem getD_set_self {α : Type} (l : List α) (i : ℕ) (a d : α) (h : i < l.length) :
    (l.set i a).getD i d = a := by
  simp [List.getD_eq_getElem?_getD, List.getElem?_set_self h]

theorem getD_set_ne {α : Type} (l : List α) {i k : ℕ} (a d : α) (h : i ≠ k) :
    (l.set i a).getD k d = l.getD k d := by
  simp [List.getD_eq_getElem?_getD, List.getElem?_set_ne h]

theorem set_getD_self {α : Type} (l : List α) (i : ℕ) (d : α) (h : i < l.length) :
    l.set i (l.getD i d) = l := by
  apply List.ext_getElem?
  intro n
  by_cases hn : i = n
  · subst hn
    rw [List.getElem?_set_self h, List.getD_eq_getElem?_getD,
      List.getElem?_eq_getElem h]
    rfl
  · rw [List.getElem?_set_ne hn]

theorem max?_concat {α : Type} [Max α] (l : List α) (a : α) :
    (l ++ [a]).max? = some (match l.max? with | none => a | some v => max v a) := by
  cases l with
  | nil => rfl
  | cons b bs => simp [List.max?_cons', List.foldl_append]

theorem min?_concat {α : Type} [Min α] (l : List α) (a : α) :
    (l ++ [a]).min? = some (match l.min? with | none => a | some v => min v a) := by
  cases l with
  | nil => rfl
  | cons b bs => simp [List.min?_cons', List.foldl_append]

theorem max?_spec {α : Type} [LinearOrder α] {l : List α} {m : α}
    (h : l.max? = some m) : m ∈ l ∧ ∀ b ∈ l, b ≤ m := by
  haveI : Std.Antisymm (α := α) (· ≤ ·) := ⟨fun h1 h2 => le_antisymm h1 h2⟩
  exact (List.max?_eq_some_iff (fun a => le_refl a) (fun a b => max_choice a b)
    (fun _ _ _ => max_le_iff)).mp h

theorem min?_spec {α : Type} [LinearOrder α] {l : List α} {m : α}
    (h : l.min? = some m) : m ∈ l ∧ ∀ b ∈ l, m ≤ b := by
  haveI : Std.Antisymm (α := α) (· ≤ ·) := ⟨fun h1 h2 => le_antisymm h1 h2⟩
  exact (List.min?_eq_some_iff (fun a => le_refl a) (fun a b => min_choice a b)
    (fun _ _ _ => le_min_iff)).mp h

theorem max?_some_of_ne_nil {α : Type} [Max α] {l : List α} (h : l ≠ []) :
    ∃ m, l.max? = some m := by
  cases l with
  | nil => exact absurd rfl h
  | cons b bs => exact ⟨_, List.max?_cons'⟩

theorem min?_some_of_ne_nil {α : Type} [Min α] {l : List α} (h : l ≠ []) :
    ∃ m, l.min? = some m := by
  cases l with
  | nil => exact absurd rfl h
  | cons b bs => exact ⟨_, List.min?_cons'⟩

theorem insertKey_of_not_mem {y : List (ℕ × ℕ)} {k : ℕ × ℕ} (h : k ∉ y) :
    insertKey y k = y ++ [k] := by
  simp [insertKey, h]

theorem erase_concat_self {y : List (ℕ × ℕ)} {k : ℕ × ℕ} (h : k ∉ y) :
    (y ++ [k]).erase k = y := by
  rw [List.erase_append_right _ h, List.erase_cons_head]
  simp

/-! ## Restoration and invariant transport -/

theorem Restored.refl (s : SearchState) : Restored s s :=
  ⟨rfl, rfl, rfl, rfl, rfl, rfl, rfl, fun _ _ => rfl⟩

theorem Inv.transport {P : Params} {N : ℕ} {done : List ℕ} {s t : SearchState}
    (hs : Inv P N done s) (hr : Restored s t) : Inv P N done t := by
  obtain ⟨hx, hload, hy, hopen, hdmin, hdmax, hreslen, hres⟩ := hr
  refine ⟨?_, ?_, ?_, ?_, ?_, ?_, ?_, ?_, ?_, ?_, ?_, ?_, ?_, ?_, ?_, ?_, ?_⟩
  · rw [hx]; exact hs.hxlen
  · rw [hload]; exact hs.hloadlen
  · rw [hreslen]; exact hs.hreslen
  · rw [hopen]; exact hs.hopen_sub
  · rw [hopen]; exact hs.hopen_lt
  · rw [hopen]; exact hs.hopen_nodup
  · rw [hopen]; exact hs.hopen_le
  · intro i; rw [hx, hopen]; exact hs.hx i
  · rw [hy, hopen]; exact hs.hy_fst
  · rw [hy]; exact hs.hy_snd_nodup
  · intro j; rw [hy]; exact hs.hy_snd j
  · rw [hopen, hy]; exact hs.hself
  · intro i; rw [hload, hy]; exact hs.hload i
  · intro i hi
    rw [hopen] at hi
    rw [hres i hi, hload]
    exact hs.hres i hi
  · intro i hi
    rw [hopen] at hi
    rw [hres i hi]
    exact hs.hres_nonneg i hi
  · rw [hdmin, hy]; exact hs.hdmin
  · rw [hdmax, hy]; exact hs.hdmax

/-! ## Projection equations for the search steps -/

theorem openStep_x (P : Params) (i : ℕ) (s : SearchState) :
    (openStep P i s).x = s.x.set i 1 := rfl

theorem openStep_load (P : Params) (i : ℕ) (s : SearchState) :
    (openStep P i s).load = s.load := rfl

theorem openStep_residual (P : Params) (i : ℕ) (s : SearchState) :
    (openStep P i s).residual = s.residual.set i P.cap := rfl

theorem openStep_y (P : Params) (i : ℕ) (s : SearchState) :
    (openStep P i s).y = s.y := rfl

theorem openStep_open (P : Params) (i : ℕ) (s : SearchState) :
    (openStep P i s).openCenters = s.openCenters ++ [i] := rfl

theorem openStep_dMin (P : Params) (i : ℕ) (s : SearchState) :
    (openStep P i s).dMin = s.dMin := rfl

theorem openStep_dMax (P : Params) (i : ℕ) (s : SearchState) :
    (openStep P i s).dMax = s.dMax := rfl

theorem commitStep_x (P : Params) (j i : ℕ) (s : SearchState) :
    (commitStep P j i s).x = s.x := rfl

theorem commitStep_open (P : Params) (j i : ℕ) (s : SearchState) :
    (commitStep P j i s).openCenters = s.openCenters := rfl

theorem commitStep_y (P : Params) (j i : ℕ) (s : SearchState) :
    (commitStep P j i s).y = insertKey s.y (i, j) := rfl

theorem commitStep_residual (P : Params) (j i : ℕ) (s : SearchState) :
    (commitStep P j i s).residual =
      s.residual.set i (s.residual.getD i 0 - P.pops.getD j 0) := rfl

theorem commitStep_load (P : Params) (j i : ℕ) (s : SearchState) :
    (commitStep P j i s).load =
      s.load.set i (s.load.getD i 0 + P.pops.getD j 0) := rfl

theorem commitStep_dMin (P : Params) (j i : ℕ) (s : SearchState) :
    (commitStep P j i s).dMin =
      some (match s.dMin with | none => P.dist i j | some v => min v (P.dist i j)) := rfl

theorem commitStep_dMax (P : Params) (j i : ℕ) (s : SearchState) :
    (commitStep P j i s).dMax =
      some (match s.dMax with | none => P.dist i j | some v => max v (P.dist i j)) := rfl

theorem closeStep_eq (i : ℕ) (s : SearchState) :
    closeStep i s = { s with openCenters := s.openCenters.dropLast,
                             x := s.x.set i 0 } := rfl

theorem undoStep_false (P : Params) (j i : ℕ) (mn mx : Option ℚ) (s : SearchState) :
    undoStep P false j i mn mx s =
      { s with dMin := mn, dMax := mx,
               residual := s.residual.set i (s.residual.getD i 0 + P.pops.getD j 0),
               load := s.load.set i (s.load.getD i 0 - P.pops.getD j 0),
               y := s.y.erase (i, j) } := by
  simp [undoStep]

theorem undoStep_true (P : Params) (j i : ℕ) (mn mx : Option ℚ) (s : SearchState) :
    undoStep P true j i mn mx s =
      { s with dMin := mn, dMax := mx,
               residual := (s.residual.set i
                 (s.residual.getD i 0 + P.pops.getD j 0)).set i 0,
               load := s.load.set i (s.load.getD i 0 - P.pops.getD j 0),
               y := s.y.erase (i, j),
               openCenters := s.openCenters.dropLast,
               x := s.x.set i 0 } := by
  simp [undoStep]

/-! ## Scenario equations for `tryCand` -/

section TryCandEq

variable {P : Params} {recurse : SearchState → Option BTResult × SearchState}
variable {j i : ℕ} {s : SearchState}

theorem tryCand_false_capfail (hop : openingOf s j i = false)
    (hcap : s.residual.getD i 0 < P.pops.getD j 0) :
    tryCand P recurse j i s = (none, s) := by
  unfold tryCand
  rw [hop]
  simp only [Bool.false_eq_true, if_false]
  rw [if_pos hcap]

theorem tryCand_true_capfail (hop : openingOf s j i = true)
    (hcap : (openStep P i s).residual.getD i 0 < P.pops.getD j 0) :
    tryCand P recurse j i s = (none, closeStep i (openStep P i s)) := by
  unfold tryCand
  rw [hop]
  simp only [if_true]
  rw [if_pos hcap]

theorem tryCand_false_dfail (hop : openingOf s j i = false)
    (hcap : ¬ s.residual.getD i 0 < P.pops.getD j 0)
    (hd : dGapPass P (commitStep P j i s) = false) :
    tryCand P recurse j i s =
      (none, undoStep P false j i s.dMin s.dMax (commitStep P j i s)) := by
  unfold tryCand
  rw [hop]
  simp only [Bool.false_eq_true, if_false]
  rw [if_neg hcap, hd]
  simp only [Bool.false_eq_true, if_false]

theorem tryCand_true_dfail (hop : openingOf s j i = true)
    (hcap : ¬ (openStep P i s).residual.getD i 0 < P.pops.getD j 0)
    (hd : dGapPass P (commitStep P j i (openStep P i s)) = false) :
    tryCand P recurse j i s =
      (none, undoStep P true j i s.dMin s.dMax (commitStep P j i (openStep P i s))) := by
  unfold tryCand
  rw [hop]
  simp only [if_true]
  rw [if_neg hcap, hd]
  simp only [Bool.false_eq_true, if_false]

theorem tryCand_false_lfail (hop : openingOf s j i = false)
    (hcap : ¬ s.residual.getD i 0 < P.pops.getD j 0)
    (hd : dGapPass P (commitStep P j i s) = true)
    (hl : loadGapPass P (commitStep P j i s) = false) :
    tryCand P recurse j i s =
      (none, undoStep P false j i s.dMin s.dMax (commitStep P j i s)) := by
  unfold tryCand
  rw [hop]
  simp only [Bool.false_eq_true, if_false]
  rw [if_neg hcap, hd, hl]
  simp only [Bool.false_eq_true, if_false, if_true]

theorem tryCand_true_lfail (hop : openingOf s j i = true)
    (hcap : ¬ (openStep P i s).residual.getD i 0 < P.pops.getD j 0)
    (hd : dGapPass P (commitStep P j i (openStep P i s)) = true)
    (hl : loadGapPass P (commitStep P j i (openStep P i s)) = false) :
    tryCand P recurse j i s =
      (none, undoStep P true j i s.dMin s.dMax (commitStep P j i (openStep P i s))) := by
  unfold tryCand
  rw [hop]
  simp only [if_true]
  rw [if_neg hcap, hd, hl]
  simp only [Bool.false_eq_true, if_false, if_true]

theorem tryCand_false_recfail {s4 : SearchState} (hop : openingOf s j i = false)
    (hcap : ¬ s.residual.getD i 0 < P.pops.getD j 0)
    (hd : dGapPass P (commitStep P j i s) = true)
    (hl : loadGapPass P (commitStep P j i s) = true)
    (hrec : recurse (commitStep P j i s) = (none, s4)) :
    tryCand P recurse j i s = (none, undoStep P false j i s.dMin s.dMax s4) := by
  unfold tryCand
  rw [hop]
  simp only [Bool.false_eq_true, if_false]
  rw [if_neg hcap, hd, hl]
  simp only [if_true]
  rw [hrec]

theorem tryCand_true_recfail {s4 : SearchState} (hop : openingOf s j i = true)
    (hcap : ¬ (openStep P i s).residual.getD i 0 < P.pops.getD j 0)
    (hd : dGapPass P (commitStep P j i (openStep P i s)) = true)
    (hl : loadGapPass P (commitStep P j i (openStep P i s)) = true)
    (hrec : recurse (commitStep P j i (openStep P i s)) = (none, s4)) :
    tryCand P recurse j i s = (none, undoStep P true j i s.dMin s.dMax s4) := by
  unfold tryCand
  rw [hop]
  simp only [if_true]
  rw [if_neg hcap, hd, hl]
  simp only [if_true]
  rw [hrec]

theorem tryCand_false_recok {r : BTResult} {s4 : SearchState}
    (hop : openingOf s j i = false)
    (hcap : ¬ s.residual.getD i 0 < P.pops.getD j 0)
    (hd : dGapPass P (commitStep P j i s) = true)
    (hl : loadGapPass P (commitStep P j i s) = true)
    (hrec : recurse (commitStep P j i s) = (some r, s4)) :
    tryCand P recurse j i s = (some r, s4) := by
  unfold tryCand
  rw [hop]
  simp only [Bool.false_eq_true, if_false]
  rw [if_neg hcap, hd, hl]
  simp only [if_true]
  rw [hrec]

theorem tryCand_true_recok {r : BTResult} {s4 : SearchState}
    (hop : openingOf s j i = true)
    (hcap : ¬ (openStep P i s).residual.getD i 0 < P.pops.getD j 0)
    (hd : dGapPass P (commitStep P j i (openStep P i s)) = true)
    (hl : loadGapPass P (commitStep P j i (openStep P i s)) = true)
    (hrec : recurse (commitStep P j i (openStep P i s)) = (some r, s4)) :
    tryCand P recurse j i s = (some r, s4) := by
  unfold tryCand
  rw [hop]
  simp only [if_true]
  rw [if_neg hcap, hd, hl]
  simp only [if_true]
  rw [hrec]

end TryCandEq

/-! ## Commit and undo analysis -/

section Analysis

variable {P : Params} {N : ℕ} {done : List ℕ} {j i : ℕ} {s : SearchState}

theorem not_open_of_not_done (hInv : Inv P N done s) (hjdone : j ∉ done) :
    j ∉ s.openCenters :=
  fun h => hjdone (hInv.hopen_sub j h)

theorem pair_not_mem_y (hInv : Inv P N done s) (hjdone : j ∉ done) (i' : ℕ) :
    (i', j) ∉ s.y := by
  intro hmem
  exact hjdone ((hInv.hy_snd j).mp ⟨i', hmem⟩)

theorem openingOf_false_of_open (hInv : Inv P N done s)
    (hi : i ∈ s.openCenters) : openingOf s j i = false := by
  unfold openingOf
  have hx := hInv.hx i
  rw [if_pos hi] at hx
  rw [hx]
  simp

theorem openingOf_true_of_new (hInv : Inv P N done s) (hjdone : j ∉ done) :
    openingOf s j j = true := by
  unfold openingOf
  have hx := hInv.hx j
  rw [if_neg (not_open_of_not_done hInv hjdone)] at hx
  rw [hx]
  simp

theorem commit_Inv_open (hInv : Inv P N done s) (hjN : j < N) (hjdone : j ∉ done)
    (hi : i ∈ s.openCenters)
    (hcap : ¬ s.residual.getD i 0 < P.pops.getD j 0) :
    Inv P N (done ++ [j]) (commitStep P j i s) := by
  have hiN : i < N := hInv.hopen_lt i hi
  have hij : (i, j) ∉ s.y := pair_not_mem_y hInv hjdone i
  have hyeq : insertKey s.y (i, j) = s.y ++ [(i, j)] := insertKey_of_not_mem hij
  have hjy : ∀ p ∈ s.y, p.2 ≠ j := by
    rintro ⟨a, b⟩ hp hb
    subst hb
    exact hjdone ((hInv.hy_snd b).mp ⟨a, hp⟩)
  refine ⟨?_, ?_, ?_, ?_, ?_, ?_, ?_, ?_, ?_, ?_, ?_, ?_, ?_, ?_, ?_, ?_, ?_⟩
  · rw [commitStep_x]; exact hInv.hxlen
  · rw [commitStep_load, List.length_set]; exact hInv.hloadlen
  · rw [commitStep_residual, List.length_set]; exact hInv.hreslen
  · rw [commitStep_open]
    exact fun c hc => List.mem_append_left _ (hInv.hopen_sub c hc)
  · rw [commitStep_open]; exact hInv.hopen_lt
  · rw [commitStep_open]; exact hInv.hopen_nodup
  · rw [commitStep_open]; exact hInv.hopen_le
  · intro c; rw [commitStep_x, commitStep_open]; exact hInv.hx c
  · intro p hp
    rw [commitStep_open]
    rw [commitStep_y, hyeq] at hp
    rcases List.mem_append.mp hp with h | h
    · exact hInv.hy_fst p h
    · have : p = (i, j) := by simpa using h
      rw [this]
      exact hi
  · rw [commitStep_y, hyeq, List.map_append]
    refine List.nodup_append.mpr ⟨hInv.hy_snd_nodup, by simp, ?_⟩
    intro a ha hb
    obtain ⟨p, hp, hpe⟩ := List.mem_map.mp ha
    have : a = j := by simpa using hb
    exact hjy p hp (by rw [hpe, this])
  · intro j'
    rw [commitStep_y, hyeq]
    constructor
    · rintro ⟨i', hmem⟩
      rcases List.mem_append.mp hmem with h | h
      · exact List.mem_append_left _ ((hInv.hy_snd j').mp ⟨i', h⟩)
      · have : (i', j') = (i, j) := by simpa using h
        have hj' : j' = j := congrArg Prod.snd this
        exact List.mem_append_right _ (by simp [hj'])
    · intro hmem
      rcases List.mem_append.mp hmem with h | h
      · obtain ⟨i', hi'⟩ := (hInv.hy_snd j').mpr h
        exact ⟨i', List.mem_append_left _ hi'⟩
      · have : j' = j := by simpa using h
        exact ⟨i, List.mem_append_right _ (by simp [this])⟩
  · intro c hc
    rw [commitStep_open] at hc
    rw [commitStep_y, hyeq]
    exact List.mem_append_left _ (hInv.hself c hc)
  · intro c
    rw [commitStep_load, commitStep_y, hyeq, List.filter_append, List.map_append,
      List.sum_append]
    by_cases hc : c = i
    · subst hc
      rw [getD_set_self _ _ _ _ (hInv.hloadlen ▸ hiN), hInv.hload c]
      simp
    · rw [getD_set_ne _ _ _ (Ne.symm hc), hInv.hload c]
      have : List.filter (fun p => p.1 = c) [(i, j)] = [] := by
        simp [Ne.symm hc]
      rw [this]
      simp
  · intro c hc
    rw [commitStep_open] at hc
    rw [commitStep_residual, commitStep_load]
    by_cases hc' : c = i
    · subst hc'
      rw [getD_set_self _ _ _ _ (hInv.hreslen ▸ hiN),
        getD_set_self _ _ _ _ (hInv.hloadlen ▸ hiN), hInv.hres c hc]
      ring
    · rw [getD_set_ne _ _ _ (Ne.symm hc'),
        getD_set_ne _ _ _ (Ne.symm hc')]
      exact hInv.hres c hc
  · intro c hc
    rw [commitStep_open] at hc
    rw [commitStep_residual]
    by_cases hc' : c = i
    · subst hc'
      rw [getD_set_self _ _ _ _ (hInv.hreslen ▸ hiN)]
      omega
    · rw [getD_set_ne _ _ _ (Ne.symm hc')]
      exact hInv.hres_nonneg c hc
  · rw [commitStep_dMin, commitStep_y, hyeq, List.map_append, hInv.hdmin]
    simp only [List.map_cons, List.map_nil]
    rw [min?_concat]
    cases (List.map (fun p => P.dist p.1 p.2) s.y).min? <;> rfl
  · rw [commitStep_dMax, commitStep_y, hyeq, List.map_append, hInv.hdmax]
    simp only [List.map_cons, List.map_nil]
    rw [max?_concat]
    cases (List.map (fun p => P.dist p.1 p.2) s.y).max? <;> rfl

theorem filter_fst_eq_nil_of_not_open (hInv : Inv P N done s)
    (hj : j ∉ s.openCenters) :
    List.filter (fun p => p.1 = j) s.y = [] := by
  rw [List.filter_eq_nil_iff]
  intro p hp
  simp only [decide_eq_true_eq]
  intro h
  exact hj (h ▸ hInv.hy_fst p hp)

theorem load_zero_of_not_open (hInv : Inv P N done s) (hj : j ∉ s.openCenters) :
    s.load.getD j 0 = 0 := by
  rw [hInv.hload j, filter_fst_eq_nil_of_not_open hInv hj]
  rfl

theorem commit_Inv_new (hInv : Inv P N done s) (hjN : j < N) (hjdone : j ∉ done)
    (hM : s.openCenters.length < P.M)
    (hcap : ¬ (openStep P j s).residual.getD j 0 < P.pops.getD j 0) :
    Inv P N (done ++ [j]) (commitStep P j j (openStep P j s)) := by
  have hjopen : j ∉ s.openCenters := not_open_of_not_done hInv hjdone
  have hjj : (j, j) ∉ s.y := pair_not_mem_y hInv hjdone j
  have hyeq : insertKey s.y (j, j) = s.y ++ [(j, j)] := insertKey_of_not_mem hjj
  have hjy : ∀ p ∈ s.y, p.2 ≠ j := by
    rintro ⟨a, b⟩ hp hb
    subst hb
    exact hjdone ((hInv.hy_snd b).mp ⟨a, hp⟩)
  have hjres : j < s.residual.length := hInv.hreslen ▸ hjN
  have hjload : j < s.load.length := hInv.hloadlen ▸ hjN
  have hjx : j < s.x.length := hInv.hxlen ▸ hjN
  have hloadj : s.load.getD j 0 = 0 := load_zero_of_not_open hInv hjopen
  have hres1 : (openStep P j s).residual.getD j 0 = P.cap :=
    getD_set_self _ _ _ _ hjres
  rw [hres1] at hcap
  have hresC : (commitStep P j j (openStep P j s)).residual =
      s.residual.set j (P.cap - P.pops.getD j 0) := by
    rw [commitStep_residual, openStep_residual,
      getD_set_self _ _ _ _ hjres, List.set_set]
  have hloadC : (commitStep P j j (openStep P j s)).load =
      s.load.set j (s.load.getD j 0 + P.pops.getD j 0) := by
    rw [commitStep_load, openStep_load]
  have hyC : (commitStep P j j (openStep P j s)).y = s.y ++ [(j, j)] := by
    rw [commitStep_y, openStep_y, hyeq]
  have hopenC : (commitStep P j j (openStep P j s)).openCenters =
      s.openCenters ++ [j] := by
    rw [commitStep_open, openStep_open]
  refine ⟨?_, ?_, ?_, ?_, ?_, ?_, ?_, ?_, ?_, ?_, ?_, ?_, ?_, ?_, ?_, ?_, ?_⟩
  · rw [commitStep_x, openStep_x, List.length_set]; exact hInv.hxlen
  · rw [hloadC, List.length_set]; exact hInv.hloadlen
  · rw [hresC, List.length_set]; exact hInv.hreslen
  · rw [hopenC]
    intro c hc
    rcases List.mem_append.mp hc with h | h
    · exact List.mem_append_left _ (hInv.hopen_sub c h)
    · exact List.mem_append_right _ h
  · rw [hopenC]
    intro c hc
    rcases List.mem_append.mp hc with h | h
    · exact hInv.hopen_lt c h
    · have : c = j := by simpa using h
      exact this ▸ hjN
  · rw [hopenC]
    refine List.nodup_append.mpr ⟨hInv.hopen_nodup, by simp, ?_⟩
    intro a ha hb
    have : a = j := by simpa using hb
    exact hjopen (this ▸ ha)
  · rw [hopenC, List.length_append]
    simpa using hM
  · intro c
    rw [commitStep_x, openStep_x, hopenC]
    by_cases hc : c = j
    · subst hc
      rw [getD_set_self _ _ _ _ hjx, if_pos (List.mem_append_right _ (by simp))]
    · rw [getD_set_ne _ _ _ (Ne.symm hc), hInv.hx c]
      by_cases hco : c ∈ s.openCenters
      · rw [if_pos hco, if_pos (List.mem_append_left _ hco)]
      · rw [if_neg hco, if_neg (by simp [List.mem_append, hc, hco])]
  · intro p hp
    rw [hopenC]
    rw [hyC] at hp
    rcases List.mem_append.mp hp with h | h
    · exact List.mem_append_left _ (hInv.hy_fst p h)
    · have : p = (j, j) := by simpa using h
      rw [this]
      exact List.mem_append_right _ (by simp)
  · rw [hyC, List.map_append]
    refine List.nodup_append.mpr ⟨hInv.hy_snd_nodup, by simp, ?_⟩
    intro a ha hb
    obtain ⟨p, hp, hpe⟩ := List.mem_map.mp ha
    have : a = j := by simpa using hb
    exact hjy p hp (by rw [hpe, this])
  · intro j'
    rw [hyC]
    constructor
    · rintro ⟨i', hmem⟩
      rcases List.mem_append.mp hmem with h | h
      · exact List.mem_append_left _ ((hInv.hy_snd j').mp ⟨i', h⟩)
      · have : (i', j') = (j, j) := by simpa using h
        have hj' : j' = j := congrArg Prod.snd this
        exact List.mem_append_right _ (by simp [hj'])
    · intro hmem
      rcases List.mem_append.mp hmem with h | h
      · obtain ⟨i', hi'⟩ := (hInv.hy_snd j').mpr h
        exact ⟨i', List.mem_append_left _ hi'⟩
      · have : j' = j := by simpa using h
        exact ⟨j, List.mem_append_right _ (by simp [this])⟩
  · intro c hc
    rw [hopenC] at hc
    rw [hyC]
    rcases List.mem_append.mp hc with h | h
    · exact List.mem_append_left _ (hInv.hself c h)
    · have : c = j := by simpa using h
      exact List.mem_append_right _ (by simp [this])
  · intro c
    rw [hloadC, hyC, List.filter_append, List.map_append, List.sum_append]
    by_cases hc : c = j
    · subst hc
      rw [getD_set_self _ _ _ _ hjload, hloadj,
        filter_fst_eq_nil_of_not_open hInv hjopen]
      simp
    · rw [getD_set_ne _ _ _ (Ne.symm hc), hInv.hload c]
      have : List.filter (fun p => p.1 = c) [(j, j)] = [] := by
        simp [Ne.symm hc]
      rw [this]
      simp
  · intro c hc
    rw [hopenC] at hc
    rw [hresC, hloadC]
    by_cases hc' : c = j
    · subst hc'
      rw [getD_set_self _ _ _ _ hjres, getD_set_self _ _ _ _ hjload, hloadj]
      ring
    · rcases List.mem_append.mp hc with h | h
      · rw [getD_set_ne _ _ _ (Ne.symm hc'), getD_set_ne _ _ _ (Ne.symm hc')]
        exact hInv.hres c h
      · exact absurd (by simpa using h) hc'
  · intro c hc
    rw [hopenC] at hc
    rw [hresC]
    by_cases hc' : c = j
    · subst hc'
      rw [getD_set_self _ _ _ _ hjres]
      omega
    · rcases List.mem_append.mp hc with h | h
      · rw [getD_set_ne _ _ _ (Ne.symm hc')]
        exact hInv.hres_nonneg c h
      · exact absurd (by simpa using h) hc'
  · rw [commitStep_dMin, openStep_dMin, hyC, List.map_append, hInv.hdmin]
    simp only [List.map_cons, List.map_nil]
    rw [min?_concat]
    cases (List.map (fun p => P.dist p.1 p.2) s.y).min? <;> rfl
  · rw [commitStep_dMax, openStep_dMax, hyC, List.map_append, hInv.hdmax]
    simp only [List.map_cons, List.map_nil]
    rw [max?_concat]
    cases (List.map (fun p => P.dist p.1 p.2) s.y).max? <;> rfl

theorem commit_Checks {t : SearchState} (hInvT : Inv P N done t)
    (hd : dGapPass P t = true) (hl : loadGapPass P t = true) :
    ChecksOf P t := by
  constructor
  · intro a ha b hb
    have hne : t.y.map (fun p => P.dist p.1 p.2) ≠ [] := by
      simp only [ne_eq, List.map_eq_nil_iff]
      intro h
      rw [h] at ha
      exact absurd ha (List.not_mem_nil a)
    obtain ⟨mn, hmn⟩ := min?_some_of_ne_nil hne
    obtain ⟨mx, hmx⟩ := max?_some_of_ne_nil hne
    have hdb : mx - mn ≤ P.beta := by
      unfold dGapPass at hd
      rw [hInvT.hdmax, hInvT.hdmin, hmx, hmn] at hd
      simpa using hd
    have h1 : P.dist a.1 a.2 ≤ mx :=
      (max?_spec hmx).2 _ (List.mem_map_of_mem _ ha)
    have h2 : mn ≤ P.dist b.1 b.2 :=
      (min?_spec hmn).2 _ (List.mem_map_of_mem _ hb)
    linarith
  · intro i1 h1 i2 h2
    have hne : t.openCenters.map (fun c => t.load.getD c 0) ≠ [] := by
      simp only [ne_eq, List.map_eq_nil_iff]
      intro h
      rw [h] at h1
      exact absurd h1 (List.not_mem_nil i1)
    obtain ⟨mn, hmn⟩ := min?_some_of_ne_nil hne
    obtain ⟨mx, hmx⟩ := max?_some_of_ne_nil hne
    have hga : mx - mn ≤ P.alpha := by
      simp only [loadGapPass] at hl
      rw [hmx, hmn] at hl
      simpa using hl
    have hb1 : t.load.getD i1 0 ≤ mx :=
      (max?_spec hmx).2 _ (List.mem_map_of_mem _ h1)
    have hb2 : mn ≤ t.load.getD i2 0 :=
      (min?_spec hmn).2 _ (List.mem_map_of_mem _ h2)
    omega

theorem closeStep_x (i : ℕ) (s : SearchState) :
    (closeStep i s).x = s.x.set i 0 := rfl

theorem closeStep_open (i : ℕ) (s : SearchState) :
    (closeStep i s).openCenters = s.openCenters.dropLast := rfl

theorem closeStep_residual (i : ℕ) (s : SearchState) :
    (closeStep i s).residual = s.residual := rfl

theorem set_zero_self {l : List ℤ} {i : ℕ} (h : i < l.length)
    (h0 : l.getD i 0 = 0) : l.set i 0 = l := by
  conv_lhs => rw [← h0]
  exact set_getD_self l i 0 h

theorem closeStep_restores (hInv : Inv P N done s) (hjN : j < N)
    (hjdone : j ∉ done) :
    Restored s (closeStep j (openStep P j s)) := by
  have hjopen := not_open_of_not_done hInv hjdone
  have hjx : j < s.x.length := hInv.hxlen ▸ hjN
  have hx0 : s.x.getD j 0 = 0 := by rw [hInv.hx j, if_neg hjopen]
  refine ⟨?_, rfl, rfl, ?_, rfl, rfl, ?_, ?_⟩
  · rw [closeStep_x, openStep_x, List.set_set]
    exact set_zero_self hjx hx0
  · rw [closeStep_open, openStep_open, List.dropLast_concat]
  · rw [closeStep_residual, openStep_residual, List.length_set]
  · intro k hk
    have hkj : j ≠ k := fun h => hjopen (h ▸ hk)
    rw [closeStep_residual, openStep_residual]
    exact getD_set_ne _ _ _ hkj

theorem undo_restores_false {t : SearchState} (hInv : Inv P N done s)
    (hjdone : j ∉ done) (hi : i ∈ s.openCenters)
    (hrt : Restored (commitStep P j i s) t) :
    Restored s (undoStep P false j i s.dMin s.dMax t) := by
  have hiN : i < N := hInv.hopen_lt i hi
  have hij : (i, j) ∉ s.y := pair_not_mem_y hInv hjdone i
  have hyeq : insertKey s.y (i, j) = s.y ++ [(i, j)] := insertKey_of_not_mem hij
  have hires : i < s.residual.length := hInv.hreslen ▸ hiN
  have hiload : i < s.load.length := hInv.hloadlen ▸ hiN
  obtain ⟨tx, tload, ty, topen, tmin, tmax, tlen, tres⟩ := hrt
  rw [commitStep_x] at tx
  rw [commitStep_load] at tload
  rw [commitStep_y, hyeq] at ty
  rw [commitStep_open] at topen
  rw [commitStep_residual, List.length_set] at tlen
  rw [undoStep_false]
  refine ⟨tx, ?_, ?_, topen, rfl, rfl, ?_, ?_⟩
  · rw [tload, getD_set_self _ _ _ _ hiload, List.set_set]
    have : s.load.getD i 0 + P.pops.getD j 0 - P.pops.getD j 0 =
        s.load.getD i 0 := by ring
    rw [this]
    exact set_getD_self _ _ _ hiload
  · rw [ty]
    exact erase_concat_self hij
  · rw [List.length_set, tlen]
  · intro k hk
    by_cases hki : i = k
    · subst hki
      rw [getD_set_self _ _ _ _ (by rw [tlen]; exact hires)]
      have h1 : t.residual.getD i 0 = (commitStep P j i s).residual.getD i 0 :=
        tres i (by rw [commitStep_open]; exact hk)
      rw [commitStep_residual, getD_set_self _ _ _ _ hires] at h1
      rw [h1]
      ring
    · rw [getD_set_ne _ _ _ hki]
      have h1 : t.residual.getD k 0 = (commitStep P j i s).residual.getD k 0 :=
        tres k (by rw [commitStep_open]; exact hk)
      rw [commitStep_residual, getD_set_ne _ _ _ hki] at h1
      exact h1

theorem undo_restores_true {t : SearchState} (hInv : Inv P N done s)
    (hjN : j < N) (hjdone : j ∉ done)
    (hrt : Restored (commitStep P j j (openStep P j s)) t) :
    Restored s (undoStep P true j j s.dMin s.dMax t) := by
  have hjopen := not_open_of_not_done hInv hjdone
  have hjj : (j, j) ∉ s.y := pair_not_mem_y hInv hjdone j
  have hyeq : insertKey s.y (j, j) = s.y ++ [(j, j)] := insertKey_of_not_mem hjj
  have hjres : j < s.residual.length := hInv.hreslen ▸ hjN
  have hjload : j < s.load.length := hInv.hloadlen ▸ hjN
  have hjx : j < s.x.length := hInv.hxlen ▸ hjN
  have hx0 : s.x.getD j 0 = 0 := by rw [hInv.hx j, if_neg hjopen]
  obtain ⟨tx, tload, ty, topen, tmin, tmax, tlen, tres⟩ := hrt
  rw [commitStep_x, openStep_x] at tx
  rw [commitStep_load, openStep_load] at tload
  rw [commitStep_y, openStep_y, hyeq] at ty
  rw [commitStep_open, openStep_open] at topen
  rw [commitStep_residual, List.length_set, openStep_residual,
    List.length_set] at tlen
  rw [undoStep_true]
  refine ⟨?_, ?_, ?_, ?_, rfl, rfl, ?_, ?_⟩
  · rw [tx, List.set_set]
    exact set_zero_self hjx hx0
  · rw [tload, getD_set_self _ _ _ _ hjload, List.set_set]
    have : s.load.getD j 0 + P.pops.getD j 0 - P.pops.getD j 0 =
        s.load.getD j 0 := by ring
    rw [this]
    exact set_getD_self _ _ _ hjload
  · rw [ty]
    exact erase_concat_self hjj
  · rw [topen, List.dropLast_concat]
  · rw [List.length_set, List.length_set, tlen]
  · intro k hk
    have hkj : k ≠ j := fun h => hjopen (h ▸ hk)
    rw [List.set_set, getD_set_ne _ _ _ (Ne.symm hkj)]
    have h1 : t.residual.getD k 0 =
        (commitStep P j j (openStep P j s)).residual.getD k 0 :=
      tres k (by rw [commitStep_open, openStep_open]; exact List.mem_append_left _ hk)
    rw [commitStep_residual, getD_set_ne _ _ _ (Ne.symm hkj), openStep_residual,
      getD_set_ne _ _ _ (Ne.symm hkj)] at h1
    exact h1

theorem tryCand_master {dAll : List ℕ}
    (recurse : SearchState → Option BTResult × SearchState)
    (hInv : Inv P N done s) (hjN : j < N) (hjdone : j ∉ done)
    (hcand : i ∈ s.openCenters ∨ (i = j ∧ s.openCenters.length < P.M))
    (hrec : ∀ t, Inv P N (done ++ [j]) t → ChecksOf P t →
      (((recurse t).1 = none → Restored t (recurse t).2) ∧
       (∀ r, (recurse t).1 = some r → GoodResult P N dAll r))) :
    ((tryCand P recurse j i s).1 = none →
      Restored s (tryCand P recurse j i s).2) ∧
    (∀ r, (tryCand P recurse j i s).1 = some r → GoodResult P N dAll r) := by
  rcases hcand with hi | ⟨hij, hM⟩
  · -- candidate is an already-open center: no tentative opening happens
    have hop : openingOf s j i = false := openingOf_false_of_open hInv hi
    by_cases hcap : s.residual.getD i 0 < P.pops.getD j 0
    · rw [@tryCand_false_capfail P recurse j i s hop hcap]
      constructor
      · intro _
        exact Restored.refl s
      · intro r hr
        cases hr
    · have hInv3 : Inv P N (done ++ [j]) (commitStep P j i s) :=
        commit_Inv_open hInv hjN hjdone hi hcap
      by_cases hd : dGapPass P (commitStep P j i s) = true
      · by_cases hl : loadGapPass P (commitStep P j i s) = true
        · have hChecks : ChecksOf P (commitStep P j i s) :=
            commit_Checks hInv3 hd hl
          obtain ⟨hrecF, hrecS⟩ := hrec _ hInv3 hChecks
          rcases hres : recurse (commitStep P j i s) with ⟨ro, s4⟩
          cases ro with
          | none =>
            rw [tryCand_false_recfail hop hcap hd hl hres]
            constructor
            · intro _
              apply undo_restores_false hInv hjdone hi
              have := hrecF (by rw [hres])
              rwa [hres] at this
            · intro r hr
              cases hr
          | some r0 =>
            rw [tryCand_false_recok hop hcap hd hl hres]
            constructor
            · intro h
              cases h
            · intro r hr
              have hr0 : r0 = r := by simpa using hr
              exact hr0 ▸ hrecS r0 (by rw [hres])
        · have hl' : loadGapPass P (commitStep P j i s) = false := by
            simpa using hl
          rw [tryCand_false_lfail hop hcap hd hl']
          constructor
          · intro _
            exact undo_restores_false hInv hjdone hi (Restored.refl _)
          · intro r hr
            cases hr
      · have hd' : dGapPass P (commitStep P j i s) = false := by simpa using hd
        rw [tryCand_false_dfail hop hcap hd']
        constructor
        · intro _
          exact undo_restores_false hInv hjdone hi (Restored.refl _)
        · intro r hr
          cases hr
  · -- candidate opens a new center at j
    subst hij
    have hop : openingOf s i i = true := openingOf_true_of_new hInv hjdone
    by_cases hcap : (openStep P i s).residual.getD i 0 < P.pops.getD i 0
    · rw [@tryCand_true_capfail P recurse i i s hop hcap]
      constructor
      · intro _
        exact closeStep_restores hInv hjN hjdone
      · intro r hr
        cases hr
    · have hInv3 : Inv P N (done ++ [i]) (commitStep P i i (openStep P i s)) :=
        commit_Inv_new hInv hjN hjdone hM hcap
      by_cases hd : dGapPass P (commitStep P i i (openStep P i s)) = true
      · by_cases hl : loadGapPass P (commitStep P i i (openStep P i s)) = true
        · have hChecks : ChecksOf P (commitStep P i i (openStep P i s)) :=
            commit_Checks hInv3 hd hl
          obtain ⟨hrecF, hrecS⟩ := hrec _ hInv3 hChecks
          rcases hres : recurse (commitStep P i i (openStep P i s)) with ⟨ro, s4⟩
          cases ro with
          | none =>
            rw [tryCand_true_recfail hop hcap hd hl hres]
            constructor
            · intro _
              apply undo_restores_true hInv hjN hjdone
              have := hrecF (by rw [hres])
              rwa [hres] at this
            · intro r hr
              cases hr
          | some r0 =>
            rw [tryCand_true_recok hop hcap hd hl hres]
            constructor
            · intro h
              cases h
            · intro r hr
              have hr0 : r0 = r := by simpa using hr
              exact hr0 ▸ hrecS r0 (by rw [hres])
        · have hl' : loadGapPass P (commitStep P i i (openStep P i s)) = false := by
            simpa using hl
          rw [tryCand_true_lfail hop hcap hd hl']
          constructor
          · intro _
            exact undo_restores_true hInv hjN hjdone (Restored.refl _)
          · intro r hr
            cases hr
      · have hd' : dGapPass P (commitStep P i i (openStep P i s)) = false := by
          simpa using hd
        rw [tryCand_true_dfail hop hcap hd']
        constructor
        · intro _
          exact undo_restores_true hInv hjN hjdone (Restored.refl _)
        · intro r hr
          cases hr

end Analysis

theorem Restored.trans {s s' t : SearchState} (h1 : Restored s s')
    (h2 : Restored s' t) : Restored s t := by
  obtain ⟨a1, b1, c1, d1, e1, f1, g1, r1⟩ := h1
  obtain ⟨a2, b2, c2, d2, e2, f2, g2, r2⟩ := h2
  refine ⟨a2.trans a1, b2.trans b1, c2.trans c1, d2.trans d1, e2.trans e1,
    f2.trans f1, g2.trans g1, ?_⟩
  intro k hk
  have hk' : k ∈ s'.openCenters := d1 ▸ hk
  exact (r2 k hk').trans (r1 k hk)

theorem btLoop_cons_eq (P : Params)
    (recurse : SearchState → Option BTResult × SearchState) (j i : ℕ)
    (cs : List ℕ) (s : SearchState) :
    btLoop P recurse j (i :: cs) s =
      match tryCand P recurse j i s with
      | (some r, s') => (some r, s')
      | (none, s') => btLoop P recurse j cs s' := rfl

theorem btLoop_master {P : Params} {N : ℕ} {done dAll : List ℕ} {j : ℕ}
    (recurse : SearchState → Option BTResult × SearchState)
    (hjN : j < N) (hjdone : j ∉ done)
    (hrec : ∀ t, Inv P N (done ++ [j]) t → ChecksOf P t →
      (((recurse t).1 = none → Restored t (recurse t).2) ∧
       (∀ r, (recurse t).1 = some r → GoodResult P N dAll r))) :
    ∀ (cands : List ℕ) (s : SearchState), Inv P N done s →
    (∀ i ∈ cands, i ∈ s.openCenters ∨ (i = j ∧ s.openCenters.length < P.M)) →
    (((btLoop P recurse j cands s).1 = none →
        Restored s (btLoop P recurse j cands s).2) ∧
     (∀ r, (btLoop P recurse j cands s).1 = some r → GoodResult P N dAll r)) := by
  intro cands
  induction cands with
  | nil =>
    intro s hInv hcands
    constructor
    · intro _
      exact Restored.refl s
    · intro r hr
      cases hr
  | cons i cs ih =>
    intro s hInv hcands
    obtain ⟨tcF, tcS⟩ := tryCand_master recurse hInv hjN hjdone
      (hcands i (List.mem_cons_self i cs)) hrec
    rcases htc : tryCand P recurse j i s with ⟨ro, s'⟩
    cases ro with
    | some r0 =>
      have heq : btLoop P recurse j (i :: cs) s = (some r0, s') := by
        rw [btLoop_cons_eq, htc]
      rw [heq]
      constructor
      · intro h
        cases h
      · intro r hr
        have hr0 : r0 = r := by simpa using hr
        exact hr0 ▸ tcS r0 (by rw [htc])
    | none =>
      have heq : btLoop P recurse j (i :: cs) s = btLoop P recurse j cs s' := by
        rw [btLoop_cons_eq, htc]
      rw [heq]
      have hRes : Restored s s' := by
        have := tcF (by rw [htc])
        rwa [htc] at this
      have hInv' : Inv P N done s' := hInv.transport hRes
      have hcands' : ∀ i' ∈ cs,
          i' ∈ s'.openCenters ∨ (i' = j ∧ s'.openCenters.length < P.M) := by
        intro i' hi'
        rw [hRes.2.2.2.1]
        exact hcands i' (List.mem_cons_of_mem i hi')
      obtain ⟨F, S⟩ := ih s' hInv' hcands'
      exact ⟨fun h => hRes.trans (F h), S⟩

theorem backtrack_nil_eq (P : Params) (s : SearchState) :
    backtrack P [] s = (some ⟨s.x, s.y⟩, s) := rfl

theorem backtrack_cons_eq (P : Params) (j : ℕ) (rest : List ℕ)
    (s : SearchState) :
    backtrack P (j :: rest) s =
      btLoop P (backtrack P rest) j (candidateList P j s.openCenters) s := rfl

theorem backtrack_master {P : Params} {N : ℕ} :
    ∀ (rem done : List ℕ) (s : SearchState), Inv P N done s →
    (∀ c ∈ rem, c < N) → (done ++ rem).Nodup →
    (rem = [] → ChecksOf P s) →
    (((backtrack P rem s).1 = none → Restored s (backtrack P rem s).2) ∧
     (∀ r, (backtrack P rem s).1 = some r →
        GoodResult P N (done ++ rem) r)) := by
  intro rem
  induction rem with
  | nil =>
    intro done s hInv hlt hnd hchk
    rw [backtrack_nil_eq]
    constructor
    · intro h
      cases h
    · intro r hr
      have hr' : (⟨s.x, s.y⟩ : BTResult) = r := by simpa using hr
      refine ⟨s, by simpa using hInv, hchk rfl, ?_, ?_⟩
      · rw [← hr']
      · rw [← hr']
  | cons j rest ih =>
    intro done s hInv hlt hnd hchk
    have hjN : j < N := hlt j (List.mem_cons_self j rest)
    have hjdone : j ∉ done := by
      intro h
      exact (List.nodup_append.mp hnd).2.2 h (List.mem_cons_self j rest)
    have hcands : ∀ i ∈ candidateList P j s.openCenters,
        i ∈ s.openCenters ∨ (i = j ∧ s.openCenters.length < P.M) := by
      intro i hi
      unfold candidateList at hi
      rcases List.mem_append.mp hi with h | h
      · exact Or.inl ((List.perm_insertionSort _ _).mem_iff.mp h)
      · by_cases hM : s.openCenters.length < P.M
        · rw [if_pos hM] at h
          exact Or.inr ⟨by simpa using h, hM⟩
        · rw [if_neg hM] at h
          exact absurd h (List.not_mem_nil i)
    have hrec : ∀ t, Inv P N (done ++ [j]) t → ChecksOf P t →
        (((backtrack P rest t).1 = none →
            Restored t (backtrack P rest t).2) ∧
         (∀ r, (backtrack P rest t).1 = some r →
            GoodResult P N (done ++ j :: rest) r)) := by
      intro t hInvT hChkT
      have hnd' : ((done ++ [j]) ++ rest).Nodup := by
        rw [List.append_assoc, List.singleton_append]
        exact hnd
      have hlt' : ∀ c ∈ rest, c < N :=
        fun c hc => hlt c (List.mem_cons_of_mem j hc)
      have := ih (done ++ [j]) t hInvT hlt' hnd' (fun _ => hChkT)
      rwa [List.append_assoc, List.singleton_append] at this
    rw [backtrack_cons_eq]
    exact btLoop_master (backtrack P rest) hjN hjdone hrec
      (candidateList P j s.openCenters) s hInv hcands

/-! ## From the search root to a successful result -/

theorem Inv_initState (P : Params) (N : ℕ) : Inv P N [] (initState N) := by
  refine ⟨?_, ?_, ?_, ?_, ?_, ?_, ?_, ?_, ?_, ?_, ?_, ?_, ?_, ?_, ?_, ?_, ?_⟩
  · simp [initState]
  · simp [initState]
  · simp [initState]
  · intro i hi
    simp [initState] at hi
  · intro i hi
    simp [initState] at hi
  · simp [initState]
  · simp [initState]
  · intro i
    simp [initState, List.getD_eq_getElem?_getD, List.getElem?_replicate]
    by_cases hi : i < N <;> simp [hi]
  · intro p hp
    simp [initState] at hp
  · simp [initState]
  · intro j
    simp [initState]
  · intro i hi
    simp [initState] at hi
  · intro i
    simp [initState, List.getD_eq_getElem?_getD, List.getElem?_replicate]
    by_cases hi : i < N <;> simp [hi]
  · intro i hi
    simp [initState] at hi
  · intro i hi
    simp [initState] at hi
  · simp [initState]
  · simp [initState]

theorem communityOrder_perm (pops : List ℤ) :
    (communityOrder pops).Perm (List.range pops.length) :=
  List.perm_insertionSort _ _

theorem communityOrder_nodup (pops : List ℤ) : (communityOrder pops).Nodup :=
  (List.nodup_range _).perm (communityOrder_perm pops).symm

theorem mem_communityOrder {pops : List ℤ} {c : ℕ} :
    c ∈ communityOrder pops ↔ c < pops.length := by
  rw [(communityOrder_perm pops).mem_iff, List.mem_range]

theorem communityOrder_length (pops : List ℤ) :
    (communityOrder pops).length = pops.length :=
  (communityOrder_perm pops).length_eq.trans (List.length_range _)

theorem buildInitialSolution_success {inst : Inst} {dist : ℕ → ℕ → ℚ}
    {r : BTResult} (h : buildInitialSolution inst dist = .ok r) :
    2 ≤ inst.pops.length ∧ 1 ≤ inst.M ∧
    ∃ sf : SearchState,
      Inv (paramsOf inst dist) inst.pops.length (communityOrder inst.pops) sf ∧
      ChecksOf (paramsOf inst dist) sf ∧ r.x = sf.x ∧ r.y = sf.y := by
  simp only [buildInitialSolution] at h
  by_cases h0 : inst.pops.length = 0
  · rw [if_pos h0] at h
    exact Except.noConfusion h
  · rw [if_neg h0] at h
    by_cases hM : inst.M = 0
    · rw [if_pos hM] at h
      exact Except.noConfusion h
    · rw [if_neg hM] at h
      by_cases h2 : inst.pops.length < 2
      · rw [if_pos h2] at h
        exact Except.noConfusion h
      · rw [if_neg h2] at h
        refine ⟨by omega, by omega, ?_⟩
        rcases hbt : backtrack (paramsOf inst dist) (communityOrder inst.pops)
            (initState inst.pops.length) with ⟨ro, s'⟩
        rw [hbt] at h
        cases ro with
        | none => exact Except.noConfusion h
        | some r0 =>
          have hr0 : r0 = r := Except.ok.inj h
          have hmain := backtrack_master (P := paramsOf inst dist)
            (N := inst.pops.length)
            (communityOrder inst.pops) [] (initState inst.pops.length)
            (Inv_initState (paramsOf inst dist) inst.pops.length)
            (fun c hc => mem_communityOrder.mp hc)
            (by simpa using communityOrder_nodup inst.pops)
            (fun hemp => by
              have hco := communityOrder_length inst.pops
              rw [hemp] at hco
              simp at hco
              omega)
          have hgood := hmain.2 r0 (by rw [hbt])
          rw [hr0] at hgood
          simpa [GoodResult] using hgood

section Bridge

variable {P : Params} {N : ℕ} {dAll : List ℕ} {r : BTResult} {sf : SearchState}

theorem paramsOf_pops (inst : Inst) (dist : ℕ → ℕ → ℚ) :
    (paramsOf inst dist).pops = inst.pops := rfl

theorem paramsOf_cap (inst : Inst) (dist : ℕ → ℕ → ℚ) :
    (paramsOf inst dist).cap = inst.cap := rfl

theorem paramsOf_M (inst : Inst) (dist : ℕ → ℕ → ℚ) :
    (paramsOf inst dist).M = inst.M := rfl

theorem paramsOf_dist (inst : Inst) (dist : ℕ → ℕ → ℚ) :
    (paramsOf inst dist).dist = dist := rfl

theorem paramsOf_alpha (inst : Inst) (dist : ℕ → ℕ → ℚ) :
    (paramsOf inst dist).alpha = alphaOf inst := rfl

theorem paramsOf_beta (inst : Inst) (dist : ℕ → ℕ → ℚ) :
    (paramsOf inst dist).beta = betaOf dist inst.pops.length := rfl

theorem mem_openCentersOf_iff (hInv : Inv P N dAll sf) (hx : r.x = sf.x)
    (i : ℕ) : i ∈ openCentersOf N r ↔ i ∈ sf.openCenters := by
  unfold openCentersOf
  rw [List.mem_filter, List.mem_range, hx]
  constructor
  · rintro ⟨hiN, hxi⟩
    by_contra hio
    rw [hInv.hx i, if_neg hio] at hxi
    simp at hxi
  · intro hio
    refine ⟨hInv.hopen_lt i hio, ?_⟩
    rw [hInv.hx i, if_pos hio]
    simp

theorem openCentersOf_perm (hInv : Inv P N dAll sf) (hx : r.x = sf.x) :
    (openCentersOf N r).Perm sf.openCenters := by
  apply List.perm_of_nodup_nodup_toFinset_eq
  · exact (List.nodup_range N).filter _
  · exact hInv.hopen_nodup
  · ext a
    simp only [List.mem_toFinset]
    exact mem_openCentersOf_iff hInv hx a

theorem loadOf_eq (hInv : Inv P N dAll sf) (hy : r.y = sf.y) (i : ℕ) :
    loadOf P.pops r i = sf.load.getD i 0 := by
  unfold loadOf
  rw [hy, ← hInv.hload i]

end Bridge

/-- C1: on every instance where `build_initial_solution` returns, the result
satisfies the five §3 invariants: the assigned communities are exactly
`{0..N-1}` with no duplicates and each is assigned to an open center; at
most `M` centers are open; every open center's assigned population sum is at
most the capacity; the pairwise workload gaps over open centers are at most
`alpha`; and the pairwise assigned-distance gaps are at most `beta` (the
pairwise forms are equivalent to the max-minus-min forms). -/
theorem buildInitialSolution_invariants (inst : Inst) (dist : ℕ → ℕ → ℚ)
    (r : BTResult) (h : buildInitialSolution inst dist = .ok r) :
    ((r.y.map Prod.snd).Nodup ∧
      (∀ j, (∃ i, (i, j) ∈ r.y) ↔ j < inst.pops.length) ∧
      (∀ p ∈ r.y, r.x.getD p.1 0 = 1)) ∧
    (openCentersOf inst.pops.length r).length ≤ inst.M ∧
    (∀ i ∈ openCentersOf inst.pops.length r, loadOf inst.pops r i ≤ inst.cap) ∧
    (∀ i1 ∈ openCentersOf inst.pops.length r,
      ∀ i2 ∈ openCentersOf inst.pops.length r,
      loadOf inst.pops r i1 - loadOf inst.pops r i2 ≤ alphaOf inst) ∧
    (∀ a ∈ r.y, ∀ b ∈ r.y,
      dist a.1 a.2 - dist b.1 b.2 ≤ betaOf dist inst.pops.length) := by
  obtain ⟨hN2, hM1, sf, hInv, hChk, hx, hy⟩ := buildInitialSolution_success h
  refine ⟨⟨?_, ?_, ?_⟩, ?_, ?_, ?_, ?_⟩
  · rw [hy]
    exact hInv.hy_snd_nodup
  · intro j
    rw [hy, hInv.hy_snd j]
    exact mem_communityOrder
  · intro p hp
    rw [hy] at hp
    rw [hx, hInv.hx p.1, if_pos (hInv.hy_fst p hp)]
  · rw [(openCentersOf_perm hInv hx).length_eq]
    exact hInv.hopen_le
  · intro i hi
    have hio := (mem_openCentersOf_iff hInv hx i).mp hi
    have h1 := hInv.hres i hio
    rw [paramsOf_cap] at h1
    have h2 := hInv.hres_nonneg i hio
    have h3 : loadOf inst.pops r i = sf.load.getD i 0 := loadOf_eq hInv hy i
    omega
  · intro i1 h1 i2 h2
    have hio1 := (mem_openCentersOf_iff hInv hx i1).mp h1
    have hio2 := (mem_openCentersOf_iff hInv hx i2).mp h2
    have hc := hChk.2 i1 hio1 i2 hio2
    rw [paramsOf_alpha] at hc
    have e1 : loadOf inst.pops r i1 = sf.load.getD i1 0 := loadOf_eq hInv hy i1
    have e2 : loadOf inst.pops r i2 = sf.load.getD i2 0 := loadOf_eq hInv hy i2
    rw [e1, e2]
    exact hc
  · intro a ha b hb
    rw [hy] at ha hb
    have hc := hChk.1 a ha b hb
    rwa [paramsOf_dist, paramsOf_beta] at hc

/-- C10: in every successful result, a center is open exactly when some
community is assigned to it, and every open center serves its own
community. -/
theorem buildInitialSolution_open_self (inst : Inst) (dist : ℕ → ℕ → ℚ)
    (r : BTResult) (h : buildInitialSolution inst dist = .ok r) :
    (∀ i, r.x.getD i 0 = 1 ↔ ∃ j, (i, j) ∈ r.y) ∧
    (∀ i, r.x.getD i 0 = 1 → (i, i) ∈ r.y) := by
  obtain ⟨hN2, hM1, sf, hInv, hChk, hx, hy⟩ := buildInitialSolution_success h
  constructor
  · intro i
    rw [hx, hy, hInv.hx i]
    constructor
    · intro h1
      by_cases hio : i ∈ sf.openCenters
      · exact ⟨i, hInv.hself i hio⟩
      · rw [if_neg hio] at h1
        norm_num at h1
    · rintro ⟨j, hj⟩
      rw [if_pos (hInv.hy_fst (i, j) hj)]
  · intro i h1
    rw [hx, hInv.hx i] at h1
    rw [hy]
    by_cases hio : i ∈ sf.openCenters
    · exact hInv.hself i hio
    · rw [if_neg hio] at h1
      norm_num at h1

theorem buildInitialSolution_invariants_witness :
    ((resW.y.map Prod.snd).Nodup ∧
      (∀ j, (∃ i, (i, j) ∈ resW.y) ↔ j < instW.pops.length) ∧
      (∀ p ∈ resW.y, resW.x.getD p.1 0 = 1)) ∧
    (openCentersOf instW.pops.length resW).length ≤ instW.M ∧
    (∀ i ∈ openCentersOf instW.pops.length resW,
      loadOf instW.pops resW i ≤ instW.cap) ∧
    (∀ i1 ∈ openCentersOf instW.pops.length resW,
      ∀ i2 ∈ openCentersOf instW.pops.length resW,
      loadOf instW.pops resW i1 - loadOf instW.pops resW i2 ≤ alphaOf instW) ∧
    (∀ a ∈ resW.y, ∀ b ∈ resW.y,
      distW a.1 a.2 - distW b.1 b.2 ≤ betaOf distW instW.pops.length) :=
  buildInitialSolution_invariants instW distW resW (by decide)

theorem buildInitialSolution_open_self_witness :
    (∀ i, resW.x.getD i 0 = 1 ↔ ∃ j, (i, j) ∈ resW.y) ∧
    (∀ i, resW.x.getD i 0 = 1 → (i, i) ∈ resW.y) :=
  buildInitialSolution_open_self instW distW resW (by decide)

/-! ## Thresholds (C7), determinism (C9), rollback (C5) -/

theorem lowerPairs1_eq (n : ℕ) :
    lowerPairs1 n = (lowerPairs n).map (fun p => (p.1 + 1, p.2 + 1)) := by
  unfold lowerPairs1 lowerPairs
  rw [List.range'_eq_map_range, List.flatMap_map, List.map_flatMap]
  congr 1
  funext i
  rw [Nat.add_sub_cancel_left, List.range'_eq_map_range, List.map_map,
    List.map_map]
  apply List.map_congr_left
  intro a _
  simp [Nat.add_comm]

theorem verifyBeta_eq (dist : ℕ → ℕ → ℚ) (n : ℕ) :
    verifyBeta dist n = betaOf dist n := by
  unfold verifyBeta betaOf maxPairDist
  rw [lowerPairs1_eq, List.map_map]
  have heq : (lowerPairs n).map
      ((fun p : ℕ × ℕ => dist (p.1 - 1) (p.2 - 1)) ∘
        (fun p : ℕ × ℕ => (p.1 + 1, p.2 + 1))) =
      (lowerPairs n).map (fun p => dist p.1 p.2) :=
    List.map_congr_left (fun a _ => by simp)
  rw [heq]

/-- C7: the `alpha` computed by `build_initial_solution` (heuristic.py line
19) and the one recomputed by `verify` (verifier.py line 105) are the same
banker's rounding of the same rational, and the two `beta` computations
(heuristic.py line 20, 0-based pairs; verifier.py line 111, 1-based pairs)
take the maximum over the same multiset of pairwise distances divided
by 5. -/
theorem thresholds_agree (inst : Inst) (dist : ℕ → ℕ → ℚ) :
    verifyAlpha inst = alphaOf inst ∧
    verifyBeta dist inst.pops.length = betaOf dist inst.pops.length :=
  ⟨rfl, verifyBeta_eq dist inst.pops.length⟩

/-- C9: the embedded `build_initial_solution` is a pure function of the
instance and its distance matrix — two invocations on equal inputs return
equal `(x_best, y_best)` pairs.  The Python original mutates only state
local to one call, which is what makes this pure embedding faithful. -/
theorem buildInitialSolution_deterministic (inst1 inst2 : Inst)
    (dist1 dist2 : ℕ → ℕ → ℚ) (hinst : inst1 = inst2) (hdist : dist1 = dist2) :
    buildInitialSolution inst1 dist1 = buildInitialSolution inst2 dist2 := by
  rw [hinst, hdist]

theorem buildInitialSolution_deterministic_witness :
    buildInitialSolution instW distW = buildInitialSolution instW distW :=
  buildInitialSolution_deterministic instW instW distW distW rfl rfl

/-- C5 amended: when a call of `backtrack` fails, the state it leaves
behind agrees with the entry state on every component except the residual
array, which is only guaranteed to be restored at the currently open
centers: a tentative opening whose capacity check fails leaves
`residual[i] = cap` behind for the re-closed center (heuristic.py lines
60-62 skip the reset), so closed centers can hold stale residuals. -/
theorem backtrack_failure_restores (P : Params) (N : ℕ) (rem done : List ℕ)
    (s : SearchState) (hInv : Inv P N done s) (hlt : ∀ c ∈ rem, c < N)
    (hnd : (done ++ rem).Nodup) (hfail : (backtrack P rem s).1 = none) :
    Restored s (backtrack P rem s).2 := by
  cases rem with
  | nil =>
    rw [backtrack_nil_eq] at hfail
    cases hfail
  | cons j rest =>
    exact (backtrack_master (j :: rest) done s hInv hlt hnd
      (fun hemp => by cases hemp)).1 hfail

theorem backtrack_failure_restores_witness :
    Restored (initState 2)
      (backtrack (paramsOf instC5 distZero) (communityOrder instC5.pops)
        (initState 2)).2 :=
  backtrack_failure_restores (paramsOf instC5 distZero) 2
    (communityOrder instC5.pops) [] (initState 2)
    (Inv_initState (paramsOf instC5 distZero) 2) (by decide) (by decide)
    (by decide)

/-- C5 counterexample: on `instC5` the community placed first is community
`0` and the root candidate list is exactly `[0]` (open a new center there).
That candidate fails its capacity check (4 < 5), and after the failed trial
`residual[0]` is `4` — the capacity written by the tentative opening — even
though it was `0` before the trial, so the rollback is not exact. -/
theorem tryCand_stale_residual :
    communityOrder instC5.pops = [0, 1] ∧
    candidateList (paramsOf instC5 distZero) 0 (initState 2).openCenters
      = [0] ∧
    (tryCand (paramsOf instC5 distZero)
      (backtrack (paramsOf instC5 distZero) [1]) 0 0 (initState 2)).1
      = none ∧
    (initState 2).residual.getD 0 0 = 0 ∧
    (tryCand (paramsOf instC5 distZero)
      (backtrack (paramsOf instC5 distZero) [1]) 0 0
      (initState 2)).2.residual.getD 0 0 = 4 := by
  decide

/-! ## The candidate ordering (C6) -/

/-- The witness distance table is genuinely Euclidean: on the collinear
coordinates `coordW`, `distW i j` squares to the squared Euclidean distance
and is non-negative, so it is exactly the matrix `Distances` would build. -/
theorem distW_euclidean :
    ∀ i < 5, ∀ j < 5, (distW i j) ^ 2 = sqDist coordW i j ∧ 0 ≤ distW i j := by
  decide

/-- C6 amended: the candidate list for community `j` is the open centers
stably sorted by ascending distance to `j` — ties are broken by the order
in which the centers appear in `open_centers` (their opening order), not by
ascending center index — followed by the synthetic "open a new center at
`j`" candidate exactly when fewer than `M` centers are open. -/
theorem candidateList_order (P : Params) (j : ℕ) (opened : List ℕ) :
    ∃ sorted : List ℕ,
      candidateList P j opened =
        sorted ++ (if opened.length < P.M then [j] else []) ∧
      sorted.Perm opened ∧
      sorted.Pairwise (fun a b => P.dist a j ≤ P.dist b j) ∧
      (∀ a b : ℕ, P.dist a j ≤ P.dist b j → [a, b].Sublist opened →
        [a, b].Sublist sorted) := by
  refine ⟨List.insertionSort (fun a b => P.dist a j ≤ P.dist b j) opened,
    rfl, List.perm_insertionSort _ _, ?_, ?_⟩
  · haveI : IsTotal ℕ (fun a b => P.dist a j ≤ P.dist b j) :=
      ⟨fun a b => le_total _ _⟩
    haveI : IsTrans ℕ (fun a b => P.dist a j ≤ P.dist b j) :=
      ⟨fun _ _ _ h1 h2 => le_trans h1 h2⟩
    exact List.sorted_insertionSort _ _
  · intro a b hab hsub
    exact List.pair_sublist_insertionSort hab hsub

/-- C6 counterexample: on `instW`, when community 2 (the midpoint of
communities 0 and 1, equidistant from both at distance 3) is placed, the
open list is `[1, 0, 3, 4]` (opening order follows descending population),
the code's candidate list keeps center 1 before center 0, while the claimed
ascending-index tie-break would put 0 first — and the two searches return
different assignments: the code sends community 2 to center 1, the claimed
ordering would send it to center 0. -/
theorem candidateList_tie_counterexample :
    candidateList (paramsOf instW distW) 2 [1, 0, 3, 4] = [1, 0, 3, 4] ∧
    candidateListSpec (paramsOf instW distW) 2 [1, 0, 3, 4] = [0, 1, 3, 4] ∧
    buildInitialSolution instW distW =
      .ok ⟨[1, 1, 0, 1, 1], [(1, 1), (0, 0), (3, 3), (4, 4), (1, 2)]⟩ ∧
    buildInitialSolutionSpec instW distW =
      .ok ⟨[1, 1, 0, 1, 1], [(1, 1), (0, 0), (3, 3), (4, 4), (0, 2)]⟩ ∧
    buildInitialSolution instW distW ≠ buildInitialSolutionSpec instW distW := by
  decide

/-! ## The coverage check (C4) -/

/-- C4 amended: the coverage check fails iff the number of distinct
assigned indices differs from `n` — not iff the assigned multiset differs
from `{1..n}` — and on failure it reports exactly the ascending list of
communities in `{1..n}` missing from the assignment and the ascending list
of indices assigned more than once. -/
theorem coverageCheck_spec (n : ℕ) (xs : List ℕ) :
    ((coverageCheck n xs).isSome ↔ xs.toFinset.card ≠ n) ∧
    (∀ md : List ℕ × List ℕ, coverageCheck n xs = some md →
      md.1 = ((Finset.Icc 1 n).filter (fun c => ¬ c ∈ xs)).sort (· ≤ ·) ∧
      md.2 = (xs.toFinset.filter (fun c => 1 < xs.count c)).sort (· ≤ ·)) := by
  constructor
  · unfold coverageCheck
    rw [List.card_toFinset]
    by_cases h : xs.dedup.length ≠ n
    · simp [h]
    · simp [h]
  · intro md hmd
    unfold coverageCheck at hmd
    by_cases h : xs.dedup.length ≠ n
    · rw [if_pos h] at hmd
      have hmd' := (Option.some.inj hmd).symm
      subst hmd'
      constructor
      · apply List.eq_of_perm_of_sorted (r := fun a b : ℕ => a ≤ b)
        · apply List.perm_of_nodup_nodup_toFinset_eq
          · exact (List.nodup_range' 1 n).filter _
          · exact Finset.sort_nodup _ _
          · ext c
            simp only [List.mem_toFinset, List.mem_filter, Finset.mem_sort,
              Finset.mem_filter, Finset.mem_Icc, List.mem_range'_1,
              decide_eq_true_eq]
            constructor
            · rintro ⟨⟨h1, h2⟩, h3⟩
              exact ⟨⟨h1, by omega⟩, h3⟩
            · rintro ⟨⟨h1, h2⟩, h3⟩
              exact ⟨⟨h1, by omega⟩, h3⟩
        · exact (List.pairwise_le_range' 1 n).sublist (List.filter_sublist _)
        · exact Finset.sort_sorted _ _
      · apply List.eq_of_perm_of_sorted (r := fun a b : ℕ => a ≤ b)
        · apply List.perm_of_nodup_nodup_toFinset_eq
          · exact (List.perm_insertionSort _ _).nodup_iff.mpr
              (xs.nodup_dedup.filter _)
          · exact Finset.sort_nodup _ _
          · ext c
            simp only [List.mem_toFinset]
            rw [(List.perm_insertionSort (fun a b : ℕ => a ≤ b)
              (List.filter (fun c => decide (1 < List.count c xs))
                xs.dedup)).mem_iff]
            simp only [List.mem_filter, List.mem_dedup, Finset.mem_sort,
              Finset.mem_filter, List.mem_toFinset, decide_eq_true_eq]
        · haveI : IsTotal ℕ (fun a b : ℕ => a ≤ b) := ⟨fun a b => le_total a b⟩
          haveI : IsTrans ℕ (fun a b : ℕ => a ≤ b) :=
            ⟨fun _ _ _ h1 h2 => le_trans h1 h2⟩
          exact List.sorted_insertionSort _ _
        · exact Finset.sort_sorted _ _
    · rw [if_neg h] at hmd
      cases hmd

/-- C4 counterexample: with a single community (`n = 1`) and the assigned
list `[2]`, the multiset union `{2}` differs from the full community set
`{1}` (community 1 missing, index 2 out of range), yet the number of
distinct assigned indices equals `n`, so the check passes — the claimed
equivalence is false. -/
theorem coverageCheck_counterexample :
    ¬ (((coverageCheck 1 [2]).isSome) ↔ ¬ ([2].Perm (List.range' 1 1))) := by
  decide

theorem coverageCheck_spec_witness :
    coverageCheck 2 [1, 1] = some ([2], [1]) ∧
    ([2] = ((Finset.Icc 1 2).filter (fun c => ¬ c ∈ [1, 1])).sort (· ≤ ·) ∧
     [1] = ([1, 1].toFinset.filter (fun c => 1 < [1, 1].count c)).sort (· ≤ ·)) :=
  ⟨by decide, (coverageCheck_spec 2 [1, 1]).2 ([2], [1]) (by decide)⟩

/-! ## Totality of the verifier on in-range solutions (C3) -/

theorem ok_bind {α β : Type} (a : α) (f : α → Except VerifyCrash β) :
    (Except.ok a >>= f) = f a := rfl

theorem mapM_ok {α β : Type} (g : α → Except VerifyCrash β) (l : List α)
    (h : ∀ a ∈ l, ∃ b, g a = .ok b) :
    ∃ out : List β, l.mapM g = .ok out ∧ out.length = l.length := by
  induction l with
  | nil => exact ⟨[], rfl, rfl⟩
  | cons a as ih =>
    obtain ⟨b, hb⟩ := h a (List.mem_cons_self a as)
    obtain ⟨out, hout, hlen⟩ := ih (fun x hx => h x (List.mem_cons_of_mem a hx))
    refine ⟨b :: out, ?_, by simp [hlen]⟩
    rw [List.mapM_cons, hb, ok_bind, hout, ok_bind]
    rfl

theorem find?_eq_of_nodup_keys {ps : List (ℕ × List ℕ)} {p0 : ℕ × List ℕ}
    (hnd : (ps.map Prod.fst).Nodup) (hp0 : p0 ∈ ps) :
    ps.find? (fun p => p.1 = p0.1) = some p0 := by
  induction ps with
  | nil => exact absurd hp0 (List.not_mem_nil p0)
  | cons q qs ih =>
    rw [List.map_cons, List.nodup_cons] at hnd
    rcases List.mem_cons.mp hp0 with h | h
    · subst h
      simp [List.find?]
    · have hq : ¬ (q.1 = p0.1) := by
        intro he
        exact hnd.1 (he ▸ List.mem_map_of_mem Prod.fst h)
      rw [List.find?]
      simp only [hq, decide_eq_true_eq, decide_eq_false_iff_not.mpr hq]
      exact ih hnd.2 h

theorem getKey_some {α : Type} (v : α) : getKey (some v) = Except.ok v := rfl

theorem centerLoad_ok {inst : Inst} {sol : ParsedSolution} {c : ℕ}
    (hkeys : (sol.assignPairs.map Prod.fst).Nodup)
    (hc : c ∈ sol.assignPairs.map Prod.fst)
    (har : ∀ p ∈ sol.assignPairs, ∀ j ∈ p.2,
      1 ≤ j ∧ j ≤ inst.pops.length) :
    ∃ v : ℤ, centerLoad inst sol c = .ok v := by
  obtain ⟨p0, hp0, hfst⟩ := List.mem_map.mp hc
  have hfind : sol.assignPairs.find? (fun p => p.1 = c) = some p0 := by
    rw [← hfst]
    exact find?_eq_of_nodup_keys hkeys hp0
  have hlst : assignLookup sol c = some p0.2 := by
    rw [assignLookup, hfind]
    rfl
  obtain ⟨ps, hps, _⟩ := mapM_ok (fun j => getKey (popLookup inst j)) p0.2
    (fun j hj => by
      obtain ⟨h1, h2⟩ := har p0 hp0 j hj
      have hpop : popLookup inst j = some (inst.pops.getD (j - 1) 0) := by
        unfold popLookup
        rw [if_pos ⟨h1, h2⟩]
      refine ⟨inst.pops.getD (j - 1) 0, ?_⟩
      show getKey (popLookup inst j) = Except.ok (inst.pops.getD (j - 1) 0)
      rw [hpop]
      rfl)
  refine ⟨ps.sum, ?_⟩
  simp only [centerLoad, hlst, getKey_some, ok_bind, hps]
  rfl

theorem capacityViolation_ok {inst : Inst} {sol : ParsedSolution}
    (l : List ℕ) (h : ∀ c ∈ l, ∃ v, centerLoad inst sol c = .ok v) :
    ∃ o, capacityViolation inst sol l = .ok o := by
  induction l with
  | nil => exact ⟨none, rfl⟩
  | cons c cs ih =>
    obtain ⟨v, hv⟩ := h c (List.mem_cons_self c cs)
    obtain ⟨o, ho⟩ := ih (fun x hx => h x (List.mem_cons_of_mem c hx))
    by_cases hcap : inst.cap < v
    · refine ⟨some (c, v), ?_⟩
      rw [capacityViolation, hv, ok_bind, if_pos hcap]
      rfl
    · refine ⟨o, ?_⟩
      rw [capacityViolation, hv, ok_bind, if_neg hcap]
      exact ho

theorem mapM_ok_forall₂ {α β : Type} (g : α → Except VerifyCrash β)
    (l : List α) (h : ∀ a ∈ l, ∃ b, g a = .ok b) :
    ∃ out : List β, l.mapM g = .ok out ∧
      List.Forall₂ (fun a b => g a = .ok b) l out := by
  induction l with
  | nil => exact ⟨[], rfl, List.Forall₂.nil⟩
  | cons a as ih =>
    obtain ⟨b, hb⟩ := h a (List.mem_cons_self a as)
    obtain ⟨out, hout, hfa⟩ := ih (fun x hx => h x (List.mem_cons_of_mem a hx))
    refine ⟨b :: out, ?_, List.Forall₂.cons hb hfa⟩
    rw [List.mapM_cons, hb, ok_bind, hout, ok_bind]
    rfl

theorem forall₂_mem_right {α β : Type} {R : α → β → Prop} {l : List α}
    {out : List β} (h : List.Forall₂ R l out) :
    ∀ b ∈ out, ∃ a ∈ l, R a b := by
  induction h with
  | nil => intro b hb; cases hb
  | cons h1 h2 ih =>
    intro b hb
    rcases List.mem_cons.mp hb with h | h
    · exact ⟨_, List.mem_cons_self _ _, h ▸ h1⟩
    · obtain ⟨a, ha, hr⟩ := ih b h
      exact ⟨a, List.mem_cons_of_mem _ ha, hr⟩

theorem forall₂_mem_left {α β : Type} {R : α → β → Prop} {l : List α}
    {out : List β} (h : List.Forall₂ R l out) :
    ∀ a ∈ l, ∃ b ∈ out, R a b := by
  induction h with
  | nil => intro a ha; cases ha
  | cons h1 h2 ih =>
    intro a ha
    rcases List.mem_cons.mp ha with h | h
    · exact ⟨_, List.mem_cons_self _ _, h ▸ h1⟩
    · obtain ⟨b, hb, hr⟩ := ih a h
      exact ⟨b, List.mem_cons_of_mem _ hb, hr⟩

theorem deployedPairs_ok {sol : ParsedSolution}
    (hkeys : (sol.assignPairs.map Prod.fst).Nodup)
    (hdk : ∀ c ∈ sol.deployed, c ∈ sol.assignPairs.map Prod.fst) :
    ∃ pairs : List (ℕ × ℕ), deployedPairs sol = .ok pairs ∧
      (∀ q ∈ pairs, q.1 ∈ sol.deployed ∧
        ∃ p ∈ sol.assignPairs, q.2 ∈ p.2) ∧
      (∀ p0 ∈ sol.assignPairs, p0.1 ∈ sol.deployed → p0.2 ≠ [] →
        pairs ≠ []) := by
  have hstep : ∀ i ∈ sol.deployed,
      ∃ lp : List (ℕ × ℕ),
        (do
          let lst ← getKey (assignLookup sol i)
          return lst.map (fun j => (i, j))) = Except.ok lp ∧
        (∀ q ∈ lp, q.1 = i ∧ ∃ p ∈ sol.assignPairs, q.2 ∈ p.2) := by
    intro i hi
    obtain ⟨p0, hp0, hfst⟩ := List.mem_map.mp (hdk i hi)
    have hfind : sol.assignPairs.find? (fun p => p.1 = i) = some p0 := by
      rw [← hfst]
      exact find?_eq_of_nodup_keys hkeys hp0
    refine ⟨p0.2.map (fun j => (i, j)), ?_, ?_⟩
    · rw [show assignLookup sol i = some p0.2 by rw [assignLookup, hfind]; rfl]
      rfl
    · intro q hq
      obtain ⟨j, hj, hje⟩ := List.mem_map.mp hq
      exact ⟨by rw [← hje], p0, hp0, by rw [← hje]; exact hj⟩
  obtain ⟨out, hout, hfa⟩ := mapM_ok_forall₂ _ sol.deployed
    (fun i hi => (hstep i hi).elim (fun lp hlp => ⟨lp, hlp.1⟩))
  refine ⟨out.flatten, ?_, ?_, ?_⟩
  · rw [deployedPairs, hout, ok_bind]
    rfl
  · intro q hq
    obtain ⟨b, hb, hqb⟩ := List.mem_flatten.mp hq
    obtain ⟨i, hi, hgi⟩ := forall₂_mem_right hfa b hb
    obtain ⟨lp, hlp, hprop⟩ := hstep i hi
    have hbe : lp = b := by
      rw [hlp] at hgi
      exact Except.ok.inj hgi
    obtain ⟨hq1, hq2⟩ := hprop q (hbe ▸ hqb)
    exact ⟨hq1 ▸ hi, hq2⟩
  · intro p0 hp0 hp0d hp0ne
    obtain ⟨b, hb, hgb⟩ := forall₂_mem_left hfa p0.1 hp0d
    have hfind : sol.assignPairs.find? (fun p => p.1 = p0.1) = some p0 :=
      find?_eq_of_nodup_keys hkeys hp0
    have hbe : b = p0.2.map (fun j => (p0.1, j)) := by
      rw [show assignLookup sol p0.1 = some p0.2 by
        rw [assignLookup, hfind]; rfl] at hgb
      exact (Except.ok.inj hgb).symm
    intro hfl
    rw [List.flatten_eq_nil_iff] at hfl
    have := hfl b hb
    rw [hbe] at this
    exact hp0ne (by simpa using this)

theorem nonEmptySeq_some {α : Type} (v : α) :
    nonEmptySeq (some v) = Except.ok v := rfl

theorem ite_ok_total {c : Prop} [Decidable c]
    {a b : Except VerifyCrash Verdict}
    (ha : ∃ v, a = .ok v) (hb : ∃ v, b = .ok v) :
    ∃ v, (if c then a else b) = .ok v := by
  by_cases h : c
  · rw [if_pos h]
    exact ha
  · rw [if_neg h]
    exact hb

theorem verifyMetrics_total (inst : Inst) (dist : ℕ → ℕ → ℚ)
    (sol : ParsedSolution)
    (hn : 2 ≤ inst.pops.length) (hm : 1 ≤ inst.M)
    (hkeys : (sol.assignPairs.map Prod.fst).Nodup)
    (hdk : ∀ c ∈ sol.deployed, c ∈ sol.assignPairs.map Prod.fst)
    (hdr : ∀ c ∈ sol.deployed, 1 ≤ c ∧ c ≤ inst.pops.length)
    (har : ∀ p ∈ sol.assignPairs, ∀ j ∈ p.2, 1 ≤ j ∧ j ≤ inst.pops.length)
    (hdep_ne : sol.deployed ≠ [])
    (hpair_ne : ∃ p0 ∈ sol.assignPairs, p0.1 ∈ sol.deployed ∧ p0.2 ≠ []) :
    ∃ v : Verdict, verifyMetrics inst dist sol = .ok v := by
  obtain ⟨pairs, hpairs, hmem, hne⟩ := deployedPairs_ok hkeys hdk
  have hlook : ∀ q ∈ pairs,
      popLookup inst q.2 = some (inst.pops.getD (q.2 - 1) 0) ∧
      distLookup inst dist q.1 q.2 = some (dist (q.1 - 1) (q.2 - 1)) := by
    intro q hq
    obtain ⟨hq1, p, hp, hq2⟩ := hmem q hq
    obtain ⟨hj1, hj2⟩ := har p hp q.2 hq2
    obtain ⟨hi1, hi2⟩ := hdr q.1 hq1
    constructor
    · unfold popLookup
      rw [if_pos ⟨hj1, hj2⟩]
    · unfold distLookup
      rw [if_pos ⟨hi1, hi2, hj1, hj2⟩]
  obtain ⟨objVals, hobj, _⟩ := mapM_ok
    (fun p : ℕ × ℕ => do
      let pj ← getKey (popLookup inst p.2)
      let dij ← getKey (distLookup inst dist p.1 p.2)
      return (pj : ℚ) * dij) pairs
    (fun q hq => by
      obtain ⟨h1, h2⟩ := hlook q hq
      refine ⟨((inst.pops.getD (q.2 - 1) 0 : ℤ) : ℚ) * dist (q.1 - 1) (q.2 - 1), ?_⟩
      show (do
        let pj ← getKey (popLookup inst q.2)
        let dij ← getKey (distLookup inst dist q.1 q.2)
        return (pj : ℚ) * dij) = _
      rw [h1, getKey_some, ok_bind, h2, getKey_some, ok_bind]
      rfl)
  obtain ⟨wls, hwls, hwlen⟩ := mapM_ok (centerLoad inst sol) sol.deployed
    (fun c hc => centerLoad_ok hkeys (hdk c hc) har)
  have hwne : wls ≠ [] := by
    intro h
    rw [h] at hwlen
    exact hdep_ne (List.length_eq_zero.mp hwlen.symm)
  obtain ⟨wmn, hwmn⟩ := min?_some_of_ne_nil hwne
  obtain ⟨wmx, hwmx⟩ := max?_some_of_ne_nil hwne
  obtain ⟨ds, hds, hdslen⟩ := mapM_ok
    (fun p : ℕ × ℕ => getKey (distLookup inst dist p.1 p.2)) pairs
    (fun q hq => by
      obtain ⟨_, h2⟩ := hlook q hq
      refine ⟨dist (q.1 - 1) (q.2 - 1), ?_⟩
      show getKey (distLookup inst dist q.1 q.2) = _
      rw [h2]
      rfl)
  obtain ⟨p0, hp0, hp0d, hp0ne⟩ := hpair_ne
  have hpne : pairs ≠ [] := hne p0 hp0 hp0d hp0ne
  have hdne : ds ≠ [] := by
    intro h
    rw [h] at hdslen
    exact hpne (List.length_eq_zero.mp hdslen.symm)
  obtain ⟨dmn, hdmn⟩ := min?_some_of_ne_nil hdne
  obtain ⟨dmx, hdmx⟩ := max?_some_of_ne_nil hdne
  simp only [verifyMetrics, hpairs, ok_bind, hobj, hwls, hwmn, hwmx, hds,
    hdmn, hdmx, nonEmptySeq_some]
  rw [if_neg (by omega : ¬ 5 * inst.M = 0),
    if_neg (by omega : ¬ inst.pops.length < 2)]
  exact ite_ok_total ⟨_, rfl⟩ (ite_ok_total ⟨_, rfl⟩
    (ite_ok_total ⟨_, rfl⟩ ⟨_, rfl⟩))

/-- C3 (amended): `verify` runs to completion with a terminal verdict and no
exception on every solution whose assignment dict has distinct keys, whose
deployed centers all have an assignment entry, and whose deployed and
assigned indices all lie in `{1..N}`, for any instance with `N ≥ 2` and
`M ≥ 1` — no matter which of the verified constraints the solution
violates. -/
theorem verify_total (inst : Inst) (dist : ℕ → ℕ → ℚ) (sol : ParsedSolution)
    (hn : 2 ≤ inst.pops.length) (hm : 1 ≤ inst.M)
    (hkeys : (sol.assignPairs.map Prod.fst).Nodup)
    (hdk : ∀ c ∈ sol.deployed, c ∈ sol.assignPairs.map Prod.fst)
    (hdr : ∀ c ∈ sol.deployed, 1 ≤ c ∧ c ≤ inst.pops.length)
    (har : ∀ p ∈ sol.assignPairs, ∀ j ∈ p.2, 1 ≤ j ∧ j ≤ inst.pops.length) :
    ∃ v : Verdict, verify inst dist sol = .ok v := by
  unfold verify
  simp only [ne_eq]
  split
  · exact ⟨_, rfl⟩
  split
  · exact ⟨_, rfl⟩
  next h2 =>
  split
  · exact ⟨_, rfl⟩
  next hcov =>
  have hsub : ∀ k ∈ sol.assignPairs.map Prod.fst, k ∈ sol.deployed := by
    intro k hk
    by_contra hkd
    have hmemf : k ∈ (sol.assignPairs.map Prod.fst).filter
        (fun k => ¬ k ∈ sol.deployed) :=
      List.mem_filter.mpr ⟨hk, by simpa using hkd⟩
    have hmemd := List.mem_dedup.mpr hmemf
    have hmems := ((List.perm_insertionSort (fun a b => a ≤ b) _).mem_iff).mpr hmemd
    rw [not_not.mp h2] at hmems
    cases hmems
  have hlen : ((sol.assignPairs.map Prod.snd).flatten).dedup.length
      = inst.pops.length := by
    by_contra hne
    unfold coverageCheck at hcov
    rw [if_pos hne] at hcov
    exact Option.noConfusion hcov
  have hflne : (sol.assignPairs.map Prod.snd).flatten ≠ [] := by
    intro h0
    rw [h0] at hlen
    simp only [List.dedup_nil, List.length_nil] at hlen
    omega
  obtain ⟨l, hl, hlne⟩ : ∃ l ∈ sol.assignPairs.map Prod.snd, l ≠ [] := by
    by_contra hall
    push_neg at hall
    exact hflne (List.flatten_eq_nil_iff.mpr hall)
  obtain ⟨p0, hp0, hp0snd⟩ := List.mem_map.mp hl
  have hp0ne : p0.2 ≠ [] := by
    rw [hp0snd]
    exact hlne
  have hp0d : p0.1 ∈ sol.deployed :=
    hsub p0.1 (List.mem_map_of_mem Prod.fst hp0)
  have hdep_ne : sol.deployed ≠ [] := by
    intro h0
    rw [h0] at hp0d
    cases hp0d
  obtain ⟨o, ho⟩ := capacityViolation_ok sol.deployed
    (fun c hc => centerLoad_ok hkeys (hdk c hc) har)
  rw [ho, ok_bind]
  rcases o with _ | iv
  · show ∃ v, verifyMetrics inst dist sol = .ok v
    exact verifyMetrics_total inst dist sol hn hm hkeys hdk hdr har hdep_ne
      ⟨p0, hp0, hp0d, hp0ne⟩
  · exact ⟨_, rfl⟩

/-- C3 counterexample: the verifier does crash on parseable inputs — on the
one-community instance `instOne` with a fully valid solution it raises
`ValueError` from `max()` on the empty pair range of the `beta` line, and on
`instTwo` with the out-of-range assigned index 3 (which passes the coverage
check by compensating for the missing community 2) it raises `KeyError` from
`pop[3]`. -/
theorem verify_crash_counterexample :
    verify instOne distZero solOne = .error .emptySeqError ∧
    verify instTwo distZero solTwo = .error .keyError := by
  constructor <;> decide

/-- C3 witness: the totality theorem applied to `instTwo` and an in-range
two-center solution. -/
theorem verify_total_witness :
    ∃ v : Verdict,
      verify instTwo distZero ⟨[1, 2], [(1, [1]), (2, [2])], 0⟩ = .ok v :=
  verify_total instTwo distZero ⟨[1, 2], [(1, [1]), (2, [2])], 0⟩
    (by decide) (by decide) (by decide) (by decide) (by decide) (by decide)

/-! ## Serialization facts and the round-trip (C2) -/

theorem mapM_ok_map {α β : Type} (g : α → Except VerifyCrash β) (f : α → β)
    (l : List α) (h : ∀ a ∈ l, g a = .ok (f a)) :
    l.mapM g = .ok (l.map f) := by
  induction l with
  | nil => rfl
  | cons a as ih =>
    rw [List.mapM_cons, h a (List.mem_cons_self a as), ok_bind,
      ih (fun x hx => h x (List.mem_cons_of_mem a hx)), ok_bind]
    rfl

theorem capacityViolation_none {inst : Inst} {sol : ParsedSolution}
    (l : List ℕ)
    (h : ∀ c ∈ l, ∃ v, centerLoad inst sol c = .ok v ∧ ¬ inst.cap < v) :
    capacityViolation inst sol l = .ok none := by
  induction l with
  | nil => rfl
  | cons c cs ih =>
    obtain ⟨v, hv, hle⟩ := h c (List.mem_cons_self c cs)
    rw [capacityViolation, hv, ok_bind, if_neg hle]
    exact ih (fun x hx => h x (List.mem_cons_of_mem c hx))

theorem foldl_max_le {α : Type} [LinearOrder α] {l : List α} {a b : α}
    (ha : a ≤ b) (h : ∀ x ∈ l, x ≤ b) : l.foldl max a ≤ b := by
  induction l generalizing a with
  | nil => exact ha
  | cons x xs ih =>
    exact ih (max_le ha (h x (List.mem_cons_self x xs)))
      (fun y hy => h y (List.mem_cons_of_mem x hy))

theorem le_foldl_max {α : Type} [LinearOrder α] {l : List α} (a : α) :
    a ≤ l.foldl max a := by
  induction l generalizing a with
  | nil => exact le_refl a
  | cons x xs ih => exact le_trans (le_max_left a x) (ih (max a x))

theorem mem_le_foldl_max {α : Type} [LinearOrder α] {l : List α} {x : α}
    (hx : x ∈ l) : ∀ a, x ≤ l.foldl max a := by
  induction hx with
  | head ys =>
    intro a
    exact le_trans (le_max_right a x) (le_foldl_max (max a x))
  | tail y hmem ih =>
    intro a
    exact ih (max a y)

theorem foldl_max_congr_mem {α : Type} [LinearOrder α] {l₁ l₂ : List α} (a : α)
    (h : ∀ x, x ∈ l₁ ↔ x ∈ l₂) : l₁.foldl max a = l₂.foldl max a :=
  le_antisymm
    (foldl_max_le (le_foldl_max a) (fun x hx => mem_le_foldl_max ((h x).mp hx) a))
    (foldl_max_le (le_foldl_max a) (fun x hx => mem_le_foldl_max ((h x).mpr hx) a))

theorem mem_assignedTo {r : BTResult} {i j : ℕ} :
    j ∈ assignedTo r i ↔ (i, j) ∈ r.y := by
  unfold assignedTo
  rw [List.mem_map]
  constructor
  · rintro ⟨p, hp, rfl⟩
    obtain ⟨hpy, hp1⟩ := List.mem_filter.mp hp
    have h1 : p.1 = i := by simpa using hp1
    rw [← h1]
    exact hpy
  · intro hj
    exact ⟨(i, j), List.mem_filter.mpr ⟨hj, by simp⟩, rfl⟩

theorem serialize_deployed (N : ℕ) (dist : ℕ → ℕ → ℚ) (pops : List ℤ)
    (r : BTResult) : (serializeSolution N dist pops r).deployed
      = (openCentersOf N r).map (fun i => i + 1) := rfl

theorem serialize_assignPairs (N : ℕ) (dist : ℕ → ℕ → ℚ) (pops : List ℤ)
    (r : BTResult) : (serializeSolution N dist pops r).assignPairs
      = (openCentersOf N r).map (fun i =>
        (i + 1, (List.insertionSort (fun a b => a ≤ b) (assignedTo r i)).map
          (fun j => j + 1))) := rfl

theorem serialize_keys (N : ℕ) (dist : ℕ → ℕ → ℚ) (pops : List ℤ)
    (r : BTResult) :
    (serializeSolution N dist pops r).assignPairs.map Prod.fst
      = (openCentersOf N r).map (fun i => i + 1) := by
  rw [serialize_assignPairs, List.map_map]
  rfl

theorem openCentersOf_nodup (N : ℕ) (r : BTResult) :
    (openCentersOf N r).Nodup :=
  (List.nodup_range N).filter _

theorem serialize_keys_nodup (N : ℕ) (dist : ℕ → ℕ → ℚ) (pops : List ℤ)
    (r : BTResult) :
    ((serializeSolution N dist pops r).assignPairs.map Prod.fst).Nodup := by
  rw [serialize_keys]
  exact List.Nodup.map (fun a b hab => by omega) (openCentersOf_nodup N r)

theorem serialize_assignLookup (N : ℕ) (dist : ℕ → ℕ → ℚ) (pops : List ℤ)
    (r : BTResult) {i : ℕ} (hi : i ∈ openCentersOf N r) :
    assignLookup (serializeSolution N dist pops r) (i + 1)
      = some ((List.insertionSort (fun a b => a ≤ b) (assignedTo r i)).map
        (fun j => j + 1)) := by
  have hmem : (i + 1, (List.insertionSort (fun a b => a ≤ b)
      (assignedTo r i)).map (fun j => j + 1))
      ∈ (serializeSolution N dist pops r).assignPairs := by
    rw [serialize_assignPairs]
    exact List.mem_map_of_mem _ hi
  have hfind : (serializeSolution N dist pops r).assignPairs.find?
      (fun p => p.1 = i + 1)
      = some (i + 1, (List.insertionSort (fun a b => a ≤ b)
        (assignedTo r i)).map (fun j => j + 1)) :=
    find?_eq_of_nodup_keys (serialize_keys_nodup N dist pops r) hmem
  unfold assignLookup
  rw [hfind]
  rfl

theorem serialize_centerLoad (inst : Inst) (dist : ℕ → ℕ → ℚ) (r : BTResult)
    {i : ℕ} (hi : i ∈ openCentersOf inst.pops.length r)
    (hrange : ∀ j ∈ assignedTo r i, j < inst.pops.length) :
    centerLoad inst (serializeSolution inst.pops.length dist inst.pops r)
      (i + 1) = .ok (loadOf inst.pops r i) := by
  have hps : (((List.insertionSort (fun a b => a ≤ b) (assignedTo r i)).map
      (fun j => j + 1)).map (fun a => inst.pops.getD (a - 1) 0)).sum
      = loadOf inst.pops r i := by
    rw [List.Perm.sum_eq (((List.perm_insertionSort (fun a b => a ≤ b)
      (assignedTo r i)).map (fun j => j + 1)).map
        (fun a => inst.pops.getD (a - 1) 0))]
    unfold assignedTo loadOf
    rw [List.map_map, List.map_map]
    rfl
  simp only [centerLoad,
    serialize_assignLookup inst.pops.length dist inst.pops r hi,
    getKey_some, ok_bind,
    mapM_ok_map (fun j => getKey (popLookup inst j))
      (fun a => inst.pops.getD (a - 1) 0)
      ((List.insertionSort (fun a b => a ≤ b) (assignedTo r i)).map
        (fun j => j + 1))
      (fun a ha => by
        obtain ⟨j, hj, rfl⟩ := List.mem_map.mp ha
        have hjN := hrange j ((List.perm_insertionSort _ _).mem_iff.mp hj)
        show getKey (popLookup inst (j + 1)) = _
        unfold popLookup
        rw [if_pos ⟨by omega, by omega⟩]
        rfl)]
  exact congrArg Except.ok hps

theorem serialize_deployedPairs (inst : Inst) (dist : ℕ → ℕ → ℚ)
    (r : BTResult) :
    deployedPairs (serializeSolution inst.pops.length dist inst.pops r)
      = .ok (((openCentersOf inst.pops.length r).map (fun i =>
          ((List.insertionSort (fun a b => a ≤ b) (assignedTo r i)).map
            (fun j => j + 1)).map (fun a => (i + 1, a)))).flatten) := by
  rw [deployedPairs,
    mapM_ok_map (fun i => do
        let lst ← getKey (assignLookup
          (serializeSolution inst.pops.length dist inst.pops r) i)
        return lst.map (fun j => (i, j)))
      (fun c => ((List.insertionSort (fun a b => a ≤ b)
        (assignedTo r (c - 1))).map (fun j => j + 1)).map (fun a => (c, a)))
      ((serializeSolution inst.pops.length dist inst.pops r).deployed)
      (fun c hc => by
        rw [serialize_deployed] at hc
        obtain ⟨i, hi, rfl⟩ := List.mem_map.mp hc
        show (do
          let lst ← getKey (assignLookup
            (serializeSolution inst.pops.length dist inst.pops r) (i + 1))
          return lst.map (fun j => (i + 1, j))) = _
        rw [serialize_assignLookup inst.pops.length dist inst.pops r hi,
          getKey_some, ok_bind]
        rfl), ok_bind]
  rw [serialize_deployed, List.map_map]
  rfl

theorem serialize_pairs_mem (N : ℕ) (r : BTResult) (q : ℕ × ℕ) :
    (q ∈ ((openCentersOf N r).map (fun i =>
        ((List.insertionSort (fun a b => a ≤ b) (assignedTo r i)).map
          (fun j => j + 1)).map (fun a => (i + 1, a)))).flatten)
      ↔ ∃ i j, i ∈ openCentersOf N r ∧ (i, j) ∈ r.y ∧ q = (i + 1, j + 1) := by
  rw [List.mem_flatten]
  constructor
  · rintro ⟨L, hL, hqL⟩
    obtain ⟨i, hi, rfl⟩ := List.mem_map.mp hL
    obtain ⟨a, ha, rfl⟩ := List.mem_map.mp hqL
    obtain ⟨j, hj, rfl⟩ := List.mem_map.mp ha
    exact ⟨i, j, hi,
      mem_assignedTo.mp ((List.perm_insertionSort _ _).mem_iff.mp hj), rfl⟩
  · rintro ⟨i, j, hi, hjy, rfl⟩
    refine ⟨((List.insertionSort (fun a b => a ≤ b) (assignedTo r i)).map
      (fun j => j + 1)).map (fun a => (i + 1, a)),
      List.mem_map_of_mem _ hi, ?_⟩
    refine List.mem_map.mpr ⟨j + 1, ?_, rfl⟩
    exact List.mem_map.mpr ⟨j,
      (List.perm_insertionSort _ _).mem_iff.mpr (mem_assignedTo.mpr hjy), rfl⟩

theorem serialize_allAssigned_mem (N : ℕ) (dist : ℕ → ℕ → ℚ) (pops : List ℤ)
    (r : BTResult) (a : ℕ) :
    (a ∈ ((serializeSolution N dist pops r).assignPairs.map Prod.snd).flatten)
      ↔ ∃ i j, i ∈ openCentersOf N r ∧ (i, j) ∈ r.y ∧ a = j + 1 := by
  have hsnd : (serializeSolution N dist pops r).assignPairs.map Prod.snd
      = (openCentersOf N r).map (fun i =>
        (List.insertionSort (fun a b => a ≤ b) (assignedTo r i)).map
          (fun j => j + 1)) := by
    rw [serialize_assignPairs, List.map_map]
    rfl
  rw [hsnd, List.mem_flatten]
  constructor
  · rintro ⟨L, hL, haL⟩
    obtain ⟨i, hi, rfl⟩ := List.mem_map.mp hL
    obtain ⟨j, hj, rfl⟩ := List.mem_map.mp haL
    exact ⟨i, j, hi,
      mem_assignedTo.mp ((List.perm_insertionSort _ _).mem_iff.mp hj), rfl⟩
  · rintro ⟨i, j, hi, hjy, rfl⟩
    refine ⟨(List.insertionSort (fun a b => a ≤ b) (assignedTo r i)).map
      (fun j => j + 1), List.mem_map_of_mem _ hi, ?_⟩
    exact List.mem_map.mpr ⟨j,
      (List.perm_insertionSort _ _).mem_iff.mpr (mem_assignedTo.mpr hjy), rfl⟩

theorem verifyMetrics_ok (inst : Inst) (dist : ℕ → ℕ → ℚ)
    (sol : ParsedSolution) (pairs : List (ℕ × ℕ)) (wl : ℕ → ℤ)
    (hpairs : deployedPairs sol = .ok pairs)
    (hpne : pairs ≠ []) (hdne : sol.deployed ≠ [])
    (hpop : ∀ q ∈ pairs,
      popLookup inst q.2 = some (inst.pops.getD (q.2 - 1) 0))
    (hdist : ∀ q ∈ pairs,
      distLookup inst dist q.1 q.2 = some (dist (q.1 - 1) (q.2 - 1)))
    (hwl : ∀ c ∈ sol.deployed, centerLoad inst sol c = .ok (wl c))
    (hm0 : ¬ 5 * inst.M = 0) (hn2 : ¬ inst.pops.length < 2)
    (hobj : (pairs.map (fun q => ((inst.pops.getD (q.2 - 1) 0 : ℤ) : ℚ)
      * dist (q.1 - 1) (q.2 - 1))).foldl max 0 = sol.objRep)
    (hwgap : ∀ c1 ∈ sol.deployed, ∀ c2 ∈ sol.deployed,
      wl c1 - wl c2 ≤ verifyAlpha inst)
    (hdgap : ∀ q1 ∈ pairs, ∀ q2 ∈ pairs,
      dist (q1.1 - 1) (q1.2 - 1) - dist (q2.1 - 1) (q2.2 - 1)
        ≤ verifyBeta dist inst.pops.length) :
    verifyMetrics inst dist sol = .ok .ok := by
  have hobjm : pairs.mapM (fun p : ℕ × ℕ => do
      let pj ← getKey (popLookup inst p.2)
      let dij ← getKey (distLookup inst dist p.1 p.2)
      return (pj : ℚ) * dij) = .ok (pairs.map (fun q =>
        ((inst.pops.getD (q.2 - 1) 0 : ℤ) : ℚ) * dist (q.1 - 1) (q.2 - 1))) :=
    mapM_ok_map _ _ pairs (fun q hq => by
      show (do
        let pj ← getKey (popLookup inst q.2)
        let dij ← getKey (distLookup inst dist q.1 q.2)
        return (pj : ℚ) * dij) = _
      rw [hpop q hq, getKey_some, ok_bind, hdist q hq, getKey_some, ok_bind]
      rfl)
  have hwlm : sol.deployed.mapM (centerLoad inst sol)
      = .ok (sol.deployed.map wl) := mapM_ok_map _ _ _ hwl
  have hwlsne : sol.deployed.map wl ≠ [] := by
    cases hd : sol.deployed with
    | nil => exact absurd hd hdne
    | cons c cs => simp [hd]
  obtain ⟨wmn, hwmn⟩ := min?_some_of_ne_nil hwlsne
  obtain ⟨wmx, hwmx⟩ := max?_some_of_ne_nil hwlsne
  obtain ⟨hwmn_mem, _⟩ := min?_spec hwmn
  obtain ⟨hwmx_mem, _⟩ := max?_spec hwmx
  obtain ⟨c1, hc1, hc1e⟩ := List.mem_map.mp hwmx_mem
  obtain ⟨c2, hc2, hc2e⟩ := List.mem_map.mp hwmn_mem
  have hwgap2 : wmx - wmn ≤ verifyAlpha inst := by
    rw [← hc1e, ← hc2e]
    exact hwgap c1 hc1 c2 hc2
  have hdsm : pairs.mapM
      (fun p : ℕ × ℕ => getKey (distLookup inst dist p.1 p.2))
      = .ok (pairs.map (fun q => dist (q.1 - 1) (q.2 - 1))) :=
    mapM_ok_map _ _ pairs (fun q hq => by
      show getKey (distLookup inst dist q.1 q.2) = _
      rw [hdist q hq]
      rfl)
  have hdsne : pairs.map (fun q => dist (q.1 - 1) (q.2 - 1)) ≠ [] := by
    cases hp : pairs with
    | nil => exact absurd hp hpne
    | cons q qs => simp [hp]
  obtain ⟨dmn, hdmn⟩ := min?_some_of_ne_nil hdsne
  obtain ⟨dmx, hdmx⟩ := max?_some_of_ne_nil hdsne
  obtain ⟨hdmn_mem, _⟩ := min?_spec hdmn
  obtain ⟨hdmx_mem, _⟩ := max?_spec hdmx
  obtain ⟨q1, hq1, hq1e⟩ := List.mem_map.mp hdmx_mem
  obtain ⟨q2, hq2, hq2e⟩ := List.mem_map.mp hdmn_mem
  have hdgap2 : dmx - dmn ≤ verifyBeta dist inst.pops.length := by
    rw [← hq1e, ← hq2e]
    exact hdgap q1 hq1 q2 hq2
  have hc_obj : ¬ (1/1000000 : ℚ) < |(pairs.map (fun q =>
      ((inst.pops.getD (q.2 - 1) 0 : ℤ) : ℚ)
        * dist (q.1 - 1) (q.2 - 1))).foldl max 0 - sol.objRep| := by
    rw [hobj, sub_self, abs_zero]
    norm_num
  have hc_wl : ¬ ((verifyAlpha inst : ℚ) + 1/1000000
      < ((wmx - wmn : ℤ) : ℚ)) := by
    rw [not_lt]
    have hq : ((wmx - wmn : ℤ) : ℚ) ≤ (verifyAlpha inst : ℚ) := by
      exact_mod_cast hwgap2
    linarith
  have hc_d : ¬ (verifyBeta dist inst.pops.length + 1/1000000 < dmx - dmn) := by
    rw [not_lt]
    linarith [hdgap2]
  simp only [verifyMetrics, hpairs, ok_bind, hobjm, hwlm, hwmn, hwmx, hdsm,
    hdmn, hdmx, nonEmptySeq_some]
  rw [if_neg hm0, if_neg hn2, if_neg hc_obj, if_neg hc_wl, if_neg hc_d]
  rfl

theorem verify_ok (inst : Inst) (dist : ℕ → ℕ → ℚ) (sol : ParsedSolution)
    (hm : ¬ inst.M < sol.deployed.length)
    (hkd : ∀ k ∈ sol.assignPairs.map Prod.fst, k ∈ sol.deployed)
    (hcov : ((sol.assignPairs.map Prod.snd).flatten).dedup.length
      = inst.pops.length)
    (hcap : ∀ c ∈ sol.deployed,
      ∃ v, centerLoad inst sol c = .ok v ∧ ¬ inst.cap < v)
    (hmet : verifyMetrics inst dist sol = .ok .ok) :
    verify inst dist sol = .ok .ok := by
  have hfil : (sol.assignPairs.map Prod.fst).filter
      (fun k => ¬ k ∈ sol.deployed) = [] :=
    List.filter_eq_nil_iff.mpr (fun a ha => by simpa using hkd a ha)
  have hext : List.insertionSort (fun a b => a ≤ b)
      ((sol.assignPairs.map Prod.fst).filter
        (fun k => ¬ k ∈ sol.deployed)).dedup = [] := by
    rw [hfil]
    rfl
  have hcovnone : coverageCheck inst.pops.length
      ((sol.assignPairs.map Prod.snd).flatten) = none := by
    unfold coverageCheck
    rw [if_neg (fun hne => hne hcov)]
  unfold verify
  simp only [ne_eq]
  rw [if_neg hm, if_neg (not_not_intro hext), hcovnone,
    capacityViolation_none sol.deployed hcap]
  exact hmet

/-- C2: serializing a successful `build_initial_solution` result into the §6
solution shape (1-based deployed centers with their sorted assigned
communities and the recomputed objective line) and running the verifier on
it against the same instance yields the OK verdict. -/
theorem serialize_verify_roundtrip (inst : Inst) (dist : ℕ → ℕ → ℚ)
    (r : BTResult) (h : buildInitialSolution inst dist = .ok r) :
    verify inst dist (serializeSolution inst.pops.length dist inst.pops r)
      = .ok .ok := by
  obtain ⟨hN2, hM1, sf, hInv, hChk, hx, hy⟩ := buildInitialSolution_success h
  have hmemo : ∀ i,
      i ∈ openCentersOf inst.pops.length r ↔ i ∈ sf.openCenters :=
    mem_openCentersOf_iff hInv hx
  have hjlt : ∀ {i j : ℕ}, (i, j) ∈ r.y → j < inst.pops.length := by
    intro i j hjy
    rw [hy] at hjy
    exact mem_communityOrder.mp ((hInv.hy_snd j).mp ⟨i, hjy⟩)
  have hilt : ∀ {i : ℕ},
      i ∈ openCentersOf inst.pops.length r → i < inst.pops.length := by
    intro i hi
    exact hInv.hopen_lt i ((hmemo i).mp hi)
  have hrange : ∀ i, ∀ j ∈ assignedTo r i, j < inst.pops.length :=
    fun i j hj => hjlt (mem_assignedTo.mp hj)
  have hwl : ∀ c ∈ (serializeSolution inst.pops.length dist
      inst.pops r).deployed,
      centerLoad inst (serializeSolution inst.pops.length dist inst.pops r) c
        = .ok (loadOf inst.pops r (c - 1)) := by
    intro c hc
    rw [serialize_deployed] at hc
    obtain ⟨i, hi, rfl⟩ := List.mem_map.mp hc
    exact serialize_centerLoad inst dist r hi (hrange i)
  have hload_le : ∀ i ∈ openCentersOf inst.pops.length r,
      loadOf inst.pops r i ≤ inst.cap := by
    intro i hi
    have hio := (hmemo i).mp hi
    have e := loadOf_eq hInv hy i
    rw [paramsOf_pops] at e
    have h1 := hInv.hres i hio
    rw [paramsOf_cap] at h1
    have h2 := hInv.hres_nonneg i hio
    omega
  have hcap : ∀ c ∈ (serializeSolution inst.pops.length dist
      inst.pops r).deployed,
      ∃ v, centerLoad inst (serializeSolution inst.pops.length dist
        inst.pops r) c = .ok v ∧ ¬ inst.cap < v := by
    intro c hc
    refine ⟨loadOf inst.pops r (c - 1), hwl c hc, ?_⟩
    rw [serialize_deployed] at hc
    obtain ⟨i, hi, rfl⟩ := List.mem_map.mp hc
    show ¬ inst.cap < loadOf inst.pops r i
    exact not_lt.mpr (hload_le i hi)
  have hpmem : ∀ q ∈ ((openCentersOf inst.pops.length r).map (fun i =>
      ((List.insertionSort (fun a b => a ≤ b) (assignedTo r i)).map
        (fun j => j + 1)).map (fun a => (i + 1, a)))).flatten,
      1 ≤ q.1 ∧ q.1 ≤ inst.pops.length ∧ 1 ≤ q.2 ∧
        q.2 ≤ inst.pops.length ∧ (q.1 - 1, q.2 - 1) ∈ r.y := by
    intro q hq
    obtain ⟨i, j, hi, hjy, rfl⟩ :=
      (serialize_pairs_mem inst.pops.length r q).mp hq
    have h1 := hilt hi
    have h2 := hjlt hjy
    refine ⟨?_, ?_, ?_, ?_, ?_⟩
    · show 1 ≤ i + 1
      omega
    · show i + 1 ≤ inst.pops.length
      omega
    · show 1 ≤ j + 1
      omega
    · show j + 1 ≤ inst.pops.length
      omega
    · exact hjy
  have hpop : ∀ q ∈ ((openCentersOf inst.pops.length r).map (fun i =>
      ((List.insertionSort (fun a b => a ≤ b) (assignedTo r i)).map
        (fun j => j + 1)).map (fun a => (i + 1, a)))).flatten,
      popLookup inst q.2 = some (inst.pops.getD (q.2 - 1) 0) := by
    intro q hq
    obtain ⟨_, _, h3, h4, _⟩ := hpmem q hq
    unfold popLookup
    rw [if_pos ⟨h3, h4⟩]
  have hdist2 : ∀ q ∈ ((openCentersOf inst.pops.length r).map (fun i =>
      ((List.insertionSort (fun a b => a ≤ b) (assignedTo r i)).map
        (fun j => j + 1)).map (fun a => (i + 1, a)))).flatten,
      distLookup inst dist q.1 q.2 = some (dist (q.1 - 1) (q.2 - 1)) := by
    intro q hq
    obtain ⟨h1, h2, h3, h4, _⟩ := hpmem q hq
    unfold distLookup
    rw [if_pos ⟨h1, h2, h3, h4⟩]
  have hdgap : ∀ q1 ∈ ((openCentersOf inst.pops.length r).map (fun i =>
      ((List.insertionSort (fun a b => a ≤ b) (assignedTo r i)).map
        (fun j => j + 1)).map (fun a => (i + 1, a)))).flatten,
      ∀ q2 ∈ ((openCentersOf inst.pops.length r).map (fun i =>
        ((List.insertionSort (fun a b => a ≤ b) (assignedTo r i)).map
          (fun j => j + 1)).map (fun a => (i + 1, a)))).flatten,
      dist (q1.1 - 1) (q1.2 - 1) - dist (q2.1 - 1) (q2.2 - 1)
        ≤ verifyBeta dist inst.pops.length := by
    intro q1 h1 q2 h2
    obtain ⟨_, _, _, _, hy1⟩ := hpmem q1 h1
    obtain ⟨_, _, _, _, hy2⟩ := hpmem q2 h2
    rw [hy] at hy1 hy2
    rw [verifyBeta_eq]
    exact hChk.1 (q1.1 - 1, q1.2 - 1) hy1 (q2.1 - 1, q2.2 - 1) hy2
  have hwgap : ∀ c1 ∈ (serializeSolution inst.pops.length dist
      inst.pops r).deployed,
      ∀ c2 ∈ (serializeSolution inst.pops.length dist inst.pops r).deployed,
      loadOf inst.pops r (c1 - 1) - loadOf inst.pops r (c2 - 1)
        ≤ verifyAlpha inst := by
    intro c1 hc1 c2 hc2
    rw [serialize_deployed] at hc1 hc2
    obtain ⟨i1, hi1, rfl⟩ := List.mem_map.mp hc1
    obtain ⟨i2, hi2, rfl⟩ := List.mem_map.mp hc2
    have e1 := loadOf_eq hInv hy i1
    have e2 := loadOf_eq hInv hy i2
    rw [paramsOf_pops] at e1 e2
    show loadOf inst.pops r i1 - loadOf inst.pops r i2 ≤ verifyAlpha inst
    rw [e1, e2]
    exact hChk.2 i1 ((hmemo i1).mp hi1) i2 ((hmemo i2).mp hi2)
  obtain ⟨i0, hi0y⟩ : ∃ i, (i, 0) ∈ sf.y :=
    (hInv.hy_snd 0).mpr (mem_communityOrder.mpr (by omega))
  have hi0y2 : (i0, 0) ∈ r.y := by
    rw [hy]
    exact hi0y
  have hi0o : i0 ∈ openCentersOf inst.pops.length r :=
    (hmemo i0).mpr (hInv.hy_fst (i0, 0) hi0y)
  have hdne : (serializeSolution inst.pops.length dist
      inst.pops r).deployed ≠ [] := by
    rw [serialize_deployed]
    exact List.ne_nil_of_mem (List.mem_map_of_mem _ hi0o)
  have hpne : ((openCentersOf inst.pops.length r).map (fun i =>
      ((List.insertionSort (fun a b => a ≤ b) (assignedTo r i)).map
        (fun j => j + 1)).map (fun a => (i + 1, a)))).flatten ≠ [] :=
    List.ne_nil_of_mem
      ((serialize_pairs_mem inst.pops.length r (i0 + 1, 0 + 1)).mpr
        ⟨i0, 0, hi0o, hi0y2, rfl⟩)
  have hm : ¬ inst.M < (serializeSolution inst.pops.length dist
      inst.pops r).deployed.length := by
    rw [serialize_deployed, List.length_map,
      (openCentersOf_perm hInv hx).length_eq]
    exact not_lt.mpr hInv.hopen_le
  have hkd : ∀ k ∈ (serializeSolution inst.pops.length dist
      inst.pops r).assignPairs.map Prod.fst,
      k ∈ (serializeSolution inst.pops.length dist inst.pops r).deployed := by
    intro k hk
    rw [serialize_keys] at hk
    rw [serialize_deployed]
    exact hk
  have hcov : (((serializeSolution inst.pops.length dist
      inst.pops r).assignPairs.map Prod.snd).flatten).dedup.length
      = inst.pops.length := by
    have hperm : (((serializeSolution inst.pops.length dist
        inst.pops r).assignPairs.map Prod.snd).flatten).dedup.Perm
        ((List.range inst.pops.length).map (fun j => j + 1)) := by
      apply List.perm_of_nodup_nodup_toFinset_eq
      · exact List.nodup_dedup _
      · exact List.Nodup.map (fun a b hab => by omega) (List.nodup_range _)
      · ext a
        simp only [List.mem_toFinset, List.mem_dedup, List.mem_map,
          List.mem_range]
        rw [serialize_allAssigned_mem]
        constructor
        · rintro ⟨i, j, hi, hjy, rfl⟩
          exact ⟨j, hjlt hjy, rfl⟩
        · rintro ⟨j, hj, rfl⟩
          obtain ⟨i, hiy⟩ := (hInv.hy_snd j).mpr
            (mem_communityOrder.mpr hj)
          have hiy2 : (i, j) ∈ r.y := by
            rw [hy]
            exact hiy
          exact ⟨i, j, (hmemo i).mpr (hInv.hy_fst (i, j) hiy), hiy2, rfl⟩
    rw [hperm.length_eq, List.length_map, List.length_range]
  have hobj : (((openCentersOf inst.pops.length r).map (fun i =>
      ((List.insertionSort (fun a b => a ≤ b) (assignedTo r i)).map
        (fun j => j + 1)).map (fun a => (i + 1, a)))).flatten.map
      (fun q => ((inst.pops.getD (q.2 - 1) 0 : ℤ) : ℚ)
        * dist (q.1 - 1) (q.2 - 1))).foldl max 0
      = (serializeSolution inst.pops.length dist inst.pops r).objRep := by
    show _ = recomputedObjective dist inst.pops r
    unfold recomputedObjective
    refine foldl_max_congr_mem 0 ?_
    intro x
    rw [List.mem_map, List.mem_map]
    constructor
    · rintro ⟨q, hq, rfl⟩
      obtain ⟨i, j, hi, hjy, rfl⟩ :=
        (serialize_pairs_mem inst.pops.length r q).mp hq
      exact ⟨(i, j), hjy, rfl⟩
    · rintro ⟨p, hp, rfl⟩
      have hps : p ∈ sf.y := by
        rw [← hy]
        exact hp
      refine ⟨(p.1 + 1, p.2 + 1),
        (serialize_pairs_mem inst.pops.length r (p.1 + 1, p.2 + 1)).mpr
          ⟨p.1, p.2, (hmemo p.1).mpr (hInv.hy_fst p hps), hp, rfl⟩, rfl⟩
  refine verify_ok inst dist
    (serializeSolution inst.pops.length dist inst.pops r)
    hm hkd hcov hcap ?_
  exact verifyMetrics_ok inst dist
    (serializeSolution inst.pops.length dist inst.pops r)
    (((openCentersOf inst.pops.length r).map (fun i =>
      ((List.insertionSort (fun a b => a ≤ b) (assignedTo r i)).map
        (fun j => j + 1)).map (fun a => (i + 1, a)))).flatten)
    (fun c => loadOf inst.pops r (c - 1))
    (serialize_deployedPairs inst dist r) hpne hdne hpop hdist2 hwl
    (by omega) (by omega) hobj hwgap hdgap

/-- C2 witness: the round-trip theorem applied to the witness instance and
its computed search result. -/
theorem serialize_verify_roundtrip_witness :
    verify instW distW
      (serializeSolution instW.pops.length distW instW.pops resW)
      = .ok .ok :=
  serialize_verify_roundtrip instW distW resW (by decide)

/-! ## Completeness and soundness of the root failure (C8) -/

theorem Restored.symm {s t : SearchState} (h : Restored s t) : Restored t s := by
  obtain ⟨hx, hl, hy, ho, hmn, hmx, hlen, hres⟩ := h
  refine ⟨hx.symm, hl.symm, hy.symm, ho.symm, hmn.symm, hmx.symm,
    hlen.symm, ?_⟩
  intro i hi
  exact (hres i (ho ▸ hi)).symm

theorem commitState_false {P : Params} {j i : ℕ} {s : SearchState}
    (hop : openingOf s j i = false) :
    commitState P j i s = commitStep P j i s := by
  unfold commitState
  rw [hop]
  simp only [Bool.false_eq_true, if_false]

theorem commitState_true {P : Params} {j i : ℕ} {s : SearchState}
    (hop : openingOf s j i = true) :
    commitState P j i s = commitStep P j i (openStep P i s) := by
  unfold commitState
  rw [hop]
  simp only [if_true]

theorem mem_candidateList_cases {P : Params} {j i : ℕ} {opened : List ℕ}
    (hi : i ∈ candidateList P j opened) :
    i ∈ opened ∨ (i = j ∧ opened.length < P.M) := by
  unfold candidateList at hi
  rcases List.mem_append.mp hi with h | h
  · exact Or.inl ((List.perm_insertionSort _ _).mem_iff.mp h)
  · by_cases hM : opened.length < P.M
    · rw [if_pos hM] at h
      exact Or.inr ⟨by simpa using h, hM⟩
    · rw [if_neg hM] at h
      exact absurd h (List.not_mem_nil i)

theorem dGapPass_of_Restored {P : Params} {a b : SearchState}
    (h : Restored a b) : dGapPass P b = dGapPass P a := by
  unfold dGapPass
  rw [h.2.2.2.2.1, h.2.2.2.2.2.1]

theorem loadGapPass_of_Restored {P : Params} {a b : SearchState}
    (h : Restored a b) : loadGapPass P b = loadGapPass P a := by
  unfold loadGapPass
  rw [h.2.2.2.1, h.2.1]

theorem commitState_Restored {P : Params} {N : ℕ} {done : List ℕ}
    {s t : SearchState} {j i : ℕ} (hInv : Inv P N done s) (hR : Restored s t)
    (hjN : j < N)
    (hcand : i ∈ s.openCenters ∨ (i = j ∧ j ∉ done)) :
    Restored (commitState P j i s) (commitState P j i t) := by
  obtain ⟨hx, hload, hy2, hopen, hmn, hmx, hlen, hres⟩ := hR
  rcases hcand with hi | ⟨rfl, hjdone⟩
  · have hiN : i < N := hInv.hopen_lt i hi
    have hops : openingOf s j i = false := openingOf_false_of_open hInv hi
    have hopt : openingOf t j i = false := by
      unfold openingOf at hops ⊢
      rw [hx]
      exact hops
    rw [commitState_false hops, commitState_false hopt]
    refine ⟨hx, ?_, ?_, hopen, ?_, ?_, ?_, ?_⟩
    · rw [commitStep_load, commitStep_load, hload]
    · rw [commitStep_y, commitStep_y, hy2]
    · rw [commitStep_dMin, commitStep_dMin, hmn]
    · rw [commitStep_dMax, commitStep_dMax, hmx]
    · rw [commitStep_residual, commitStep_residual, List.length_set,
        List.length_set, hlen]
    · intro c hc
      have hc2 : c ∈ s.openCenters := hc
      rw [commitStep_residual, commitStep_residual]
      by_cases hci : c = i
      · subst hci
        rw [getD_set_self _ _ _ _ (by rw [hlen, hInv.hreslen]; exact hiN),
          getD_set_self _ _ _ _ (by rw [hInv.hreslen]; exact hiN),
          hres c hc2]
      · rw [getD_set_ne _ _ _ (fun h => hci h.symm),
          getD_set_ne _ _ _ (fun h => hci h.symm), hres c hc2]
  · have hops : openingOf s i i = true := openingOf_true_of_new hInv hjdone
    have hopt : openingOf t i i = true := by
      unfold openingOf at hops ⊢
      rw [hx]
      exact hops
    have hlenS : s.residual.length = N := hInv.hreslen
    have hlenT : t.residual.length = N := by rw [hlen, hlenS]
    rw [commitState_true hops, commitState_true hopt]
    refine ⟨?_, ?_, ?_, ?_, ?_, ?_, ?_, ?_⟩
    · rw [commitStep_x, commitStep_x, openStep_x, openStep_x, hx]
    · rw [commitStep_load, commitStep_load, openStep_load, openStep_load,
        hload]
    · rw [commitStep_y, commitStep_y, openStep_y, openStep_y, hy2]
    · rw [commitStep_open, commitStep_open, openStep_open, openStep_open,
        hopen]
    · rw [commitStep_dMin, commitStep_dMin, openStep_dMin, openStep_dMin,
        hmn]
    · rw [commitStep_dMax, commitStep_dMax, openStep_dMax, openStep_dMax,
        hmx]
    · rw [commitStep_residual, commitStep_residual, openStep_residual,
        openStep_residual, List.length_set, List.length_set,
        List.length_set, List.length_set, hlen]
    · intro c hc
      have hc2 : c ∈ s.openCenters ++ [i] := hc
      rw [commitStep_residual, commitStep_residual, openStep_residual,
        openStep_residual]
      by_cases hci : c = i
      · subst hci
        have e2t : (t.residual.set c P.cap).getD c 0 = P.cap :=
          getD_set_self _ _ _ _ (by rw [hlenT]; exact hjN)
        have e2s : (s.residual.set c P.cap).getD c 0 = P.cap :=
          getD_set_self _ _ _ _ (by rw [hlenS]; exact hjN)
        rw [e2t, e2s,
          getD_set_self _ _ _ _
            (by rw [List.length_set, hlenT]; exact hjN),
          getD_set_self _ _ _ _
            (by rw [List.length_set, hlenS]; exact hjN)]
      · have hcs : c ∈ s.openCenters := by
          rcases List.mem_append.mp hc2 with h | h
          · exact h
          · exact absurd (List.mem_singleton.mp h) hci
        rw [getD_set_ne _ _ _ (fun h => hci h.symm),
          getD_set_ne _ _ _ (fun h => hci h.symm),
          getD_set_ne _ _ _ (fun h => hci h.symm),
          getD_set_ne _ _ _ (fun h => hci h.symm), hres c hcs]

theorem Solvable_transfer {P : Params} {N : ℕ} :
    ∀ (rem done : List ℕ) (s t : SearchState), Inv P N done s →
    Restored s t → (∀ c ∈ rem, c < N) → (done ++ rem).Nodup →
    Solvable P rem s → Solvable P rem t := by
  intro rem
  induction rem with
  | nil =>
    intro done s t _ _ _ _ _
    exact Solvable.nil t
  | cons j rest ih =>
    intro done s t hInv hR hlt hnd hS
    have hjN : j < N := hlt j (List.mem_cons_self j rest)
    have hjdone : j ∉ done := fun h =>
      (List.nodup_append.mp hnd).2.2 h (List.mem_cons_self j rest)
    have hnd2 : ((done ++ [j]) ++ rest).Nodup := by
      rw [List.append_assoc, List.singleton_append]
      exact hnd
    have hlt2 : ∀ c ∈ rest, c < N :=
      fun c hc => hlt c (List.mem_cons_of_mem j hc)
    cases hS with
    | cons _ _ _ i hi hcap hd hl hs =>
      have hcand := mem_candidateList_cases hi
      have hcand2 : i ∈ s.openCenters ∨ (i = j ∧ j ∉ done) := by
        rcases hcand with h | ⟨h1, _⟩
        · exact Or.inl h
        · exact Or.inr ⟨h1, hjdone⟩
      have hcomR : Restored (commitState P j i s) (commitState P j i t) :=
        commitState_Restored hInv hR hjN hcand2
      have hit : i ∈ candidateList P j t.openCenters := by
        rw [hR.2.2.2.1]
        exact hi
      rcases hcand with hiopen | ⟨rfl, hM⟩
      · have hops : openingOf s j i = false := openingOf_false_of_open hInv hiopen
        have hopt : openingOf t j i = false := by
          unfold openingOf at hops ⊢
          rw [hR.1]
          exact hops
        have hcap2 : ¬ s.residual.getD i 0 < P.pops.getD j 0 := by
          rw [hops] at hcap
          simpa using hcap
        have hcap2t : ¬ t.residual.getD i 0 < P.pops.getD j 0 := by
          rw [hR.2.2.2.2.2.2.2 i hiopen]
          exact hcap2
        have hInvCs : Inv P N (done ++ [j]) (commitState P j i s) := by
          rw [commitState_false hops]
          exact commit_Inv_open hInv hjN hjdone hiopen hcap2
        have hsT : Solvable P rest (commitState P j i t) :=
          ih (done ++ [j]) _ _ hInvCs hcomR hlt2 hnd2 hs
        refine Solvable.cons j rest t i hit ?_ ?_ ?_ hsT
        · rw [hopt]
          simp only [Bool.false_eq_true, if_false]
          exact hcap2t
        · rw [dGapPass_of_Restored hcomR]
          exact hd
        · rw [loadGapPass_of_Restored hcomR]
          exact hl
      · have hops : openingOf s i i = true := openingOf_true_of_new hInv hjdone
        have hopt : openingOf t i i = true := by
          unfold openingOf at hops ⊢
          rw [hR.1]
          exact hops
        have hcap2 : ¬ (openStep P i s).residual.getD i 0
            < P.pops.getD i 0 := by
          rw [hops] at hcap
          simpa using hcap
        have hcap2t : ¬ (openStep P i t).residual.getD i 0
            < P.pops.getD i 0 := by
          have e1 : (openStep P i t).residual.getD i 0 = P.cap :=
            getD_set_self _ _ _ _
              (by rw [hR.2.2.2.2.2.2.1, hInv.hreslen]; exact hjN)
          have e2 : (openStep P i s).residual.getD i 0 = P.cap :=
            getD_set_self _ _ _ _ (by rw [hInv.hreslen]; exact hjN)
          rw [e1, ← e2]
          exact hcap2
        have hInvCs : Inv P N (done ++ [i]) (commitState P i i s) := by
          rw [commitState_true hops]
          exact commit_Inv_new hInv hjN hjdone hM hcap2
        have hsT : Solvable P rest (commitState P i i t) :=
          ih (done ++ [i]) _ _ hInvCs hcomR hlt2 hnd2 hs
        refine Solvable.cons i rest t i hit ?_ ?_ ?_ hsT
        · rw [hopt]
          simp only [if_true]
          exact hcap2t
        · rw [dGapPass_of_Restored hcomR]
          exact hd
        · rw [loadGapPass_of_Restored hcomR]
          exact hl

theorem tryCand_succeeds {P : Params} {N : ℕ} {done rest : List ℕ}
    {j i : ℕ} {s s2 : SearchState}
    (hInv : Inv P N done s) (hInv2 : Inv P N done s2) (hR : Restored s s2)
    (hjN : j < N) (hjdone : j ∉ done)
    (hcand : i ∈ s.openCenters ∨ (i = j ∧ s.openCenters.length < P.M))
    (hcap : ¬ ((if openingOf s j i then openStep P i s
      else s).residual.getD i 0 < P.pops.getD j 0))
    (hd : dGapPass P (commitState P j i s) = true)
    (hl : loadGapPass P (commitState P j i s) = true)
    (hs : Solvable P rest (commitState P j i s))
    (hlt : ∀ c ∈ rest, c < N) (hnd : ((done ++ [j]) ++ rest).Nodup)
    (hcomplete : ∀ t, Inv P N (done ++ [j]) t → Solvable P rest t →
      (backtrack P rest t).1.isSome) :
    (tryCand P (backtrack P rest) j i s2).1.isSome := by
  have hcand2 : i ∈ s.openCenters ∨ (i = j ∧ j ∉ done) := by
    rcases hcand with h | ⟨h1, _⟩
    · exact Or.inl h
    · exact Or.inr ⟨h1, hjdone⟩
  have hcomR : Restored (commitState P j i s) (commitState P j i s2) :=
    commitState_Restored hInv hR hjN hcand2
  have hd2 : dGapPass P (commitState P j i s2) = true := by
    rw [dGapPass_of_Restored hcomR]
    exact hd
  have hl2 : loadGapPass P (commitState P j i s2) = true := by
    rw [loadGapPass_of_Restored hcomR]
    exact hl
  rcases hcand with hiopen | ⟨rfl, hM⟩
  · have hops : openingOf s j i = false := openingOf_false_of_open hInv hiopen
    have hopt : openingOf s2 j i = false := by
      unfold openingOf at hops ⊢
      rw [hR.1]
      exact hops
    have hiopen2 : i ∈ s2.openCenters := by
      rw [hR.2.2.2.1]
      exact hiopen
    have hcap2 : ¬ s.residual.getD i 0 < P.pops.getD j 0 := by
      rw [hops] at hcap
      simpa using hcap
    have hcap2t : ¬ s2.residual.getD i 0 < P.pops.getD j 0 := by
      rw [hR.2.2.2.2.2.2.2 i hiopen]
      exact hcap2
    have hInvCs : Inv P N (done ++ [j]) (commitState P j i s) := by
      rw [commitState_false hops]
      exact commit_Inv_open hInv hjN hjdone hiopen hcap2
    have hInvCt : Inv P N (done ++ [j]) (commitState P j i s2) := by
      rw [commitState_false hopt]
      exact commit_Inv_open hInv2 hjN hjdone hiopen2 hcap2t
    have hsT : Solvable P rest (commitState P j i s2) :=
      Solvable_transfer rest (done ++ [j]) _ _ hInvCs hcomR hlt hnd hs
    have hsome := hcomplete _ hInvCt hsT
    rw [commitState_false hopt] at hsome
    have hd3 : dGapPass P (commitStep P j i s2) = true := by
      rw [← commitState_false hopt]
      exact hd2
    have hl3 : loadGapPass P (commitStep P j i s2) = true := by
      rw [← commitState_false hopt]
      exact hl2
    rcases hres2 : backtrack P rest (commitStep P j i s2) with ⟨ro, s4⟩
    cases ro with
    | none =>
      rw [hres2] at hsome
      simp at hsome
    | some r =>
      rw [tryCand_false_recok hopt hcap2t hd3 hl3 hres2]
      rfl
  · have hops : openingOf s i i = true := openingOf_true_of_new hInv hjdone
    have hopt : openingOf s2 i i = true := by
      unfold openingOf at hops ⊢
      rw [hR.1]
      exact hops
    have hM2 : s2.openCenters.length < P.M := by
      rw [hR.2.2.2.1]
      exact hM
    have hcap2 : ¬ (openStep P i s).residual.getD i 0 < P.pops.getD i 0 := by
      rw [hops] at hcap
      simpa using hcap
    have hcap2t : ¬ (openStep P i s2).residual.getD i 0
        < P.pops.getD i 0 := by
      have e1 : (openStep P i s2).residual.getD i 0 = P.cap :=
        getD_set_self _ _ _ _
          (by rw [hR.2.2.2.2.2.2.1, hInv.hreslen]; exact hjN)
      have e2 : (openStep P i s).residual.getD i 0 = P.cap :=
        getD_set_self _ _ _ _ (by rw [hInv.hreslen]; exact hjN)
      rw [e1, ← e2]
      exact hcap2
    have hInvCs : Inv P N (done ++ [i]) (commitState P i i s) := by
      rw [commitState_true hops]
      exact commit_Inv_new hInv hjN hjdone hM hcap2
    have hInvCt : Inv P N (done ++ [i]) (commitState P i i s2) := by
      rw [commitState_true hopt]
      exact commit_Inv_new hInv2 hjN hjdone hM2 hcap2t
    have hsT : Solvable P rest (commitState P i i s2) :=
      Solvable_transfer rest (done ++ [i]) _ _ hInvCs hcomR hlt hnd hs
    have hsome := hcomplete _ hInvCt hsT
    rw [commitState_true hopt] at hsome
    have hd3 : dGapPass P (commitStep P i i (openStep P i s2)) = true := by
      rw [← commitState_true hopt]
      exact hd2
    have hl3 : loadGapPass P (commitStep P i i (openStep P i s2)) = true := by
      rw [← commitState_true hopt]
      exact hl2
    rcases hres2 : backtrack P rest (commitStep P i i (openStep P i s2)) with
      ⟨ro, s4⟩
    cases ro with
    | none =>
      rw [hres2] at hsome
      simp at hsome
    | some r =>
      rw [tryCand_true_recok hopt hcap2t hd3 hl3 hres2]
      rfl

theorem btLoop_complete {P : Params} {N : ℕ} {done rest : List ℕ} {j i : ℕ}
    (hjN : j < N) (hjdone : j ∉ done)
    (hlt : ∀ c ∈ rest, c < N) (hnd : ((done ++ [j]) ++ rest).Nodup)
    (hcomplete : ∀ t, Inv P N (done ++ [j]) t → Solvable P rest t →
      (backtrack P rest t).1.isSome)
    (hmaster : ∀ t, Inv P N (done ++ [j]) t → ChecksOf P t →
      (((backtrack P rest t).1 = none → Restored t (backtrack P rest t).2) ∧
       (∀ r, (backtrack P rest t).1 = some r →
          GoodResult P N ((done ++ [j]) ++ rest) r)))
    {s : SearchState} (hInv : Inv P N done s)
    (hcand : i ∈ s.openCenters ∨ (i = j ∧ s.openCenters.length < P.M))
    (hcap : ¬ ((if openingOf s j i then openStep P i s
      else s).residual.getD i 0 < P.pops.getD j 0))
    (hd : dGapPass P (commitState P j i s) = true)
    (hl : loadGapPass P (commitState P j i s) = true)
    (hs : Solvable P rest (commitState P j i s)) :
    ∀ (cands : List ℕ) (s2 : SearchState), Inv P N done s2 → Restored s s2 →
      i ∈ cands →
      (∀ c ∈ cands, c ∈ s2.openCenters ∨ (c = j ∧ s2.openCenters.length < P.M)) →
      (btLoop P (backtrack P rest) j cands s2).1.isSome := by
  intro cands
  induction cands with
  | nil =>
    intro s2 _ _ hmem _
    cases hmem
  | cons c cs ihc =>
    intro s2 hInv2 hR hmem hcands
    by_cases hci : c = i
    · subst hci
      have hsome : (tryCand P (backtrack P rest) j c s2).1.isSome :=
        tryCand_succeeds hInv hInv2 hR hjN hjdone hcand hcap hd hl hs hlt hnd
          hcomplete
      rcases htc : tryCand P (backtrack P rest) j c s2 with ⟨ro, s3⟩
      cases ro with
      | some r =>
        rw [btLoop_cons_eq, htc]
        rfl
      | none =>
        rw [htc] at hsome
        simp at hsome
    · obtain ⟨tcF, _⟩ := tryCand_master (backtrack P rest) hInv2 hjN hjdone
        (hcands c (List.mem_cons_self c cs)) hmaster
      rcases htc : tryCand P (backtrack P rest) j c s2 with ⟨ro, s3⟩
      cases ro with
      | some r =>
        rw [btLoop_cons_eq, htc]
        rfl
      | none =>
        have hR2 : Restored s2 s3 := by
          have := tcF (by rw [htc])
          rwa [htc] at this
        have hmem2 : i ∈ cs := by
          rcases List.mem_cons.mp hmem with h | h
          · exact absurd h.symm hci
          · exact h
        have hcands2 : ∀ c2 ∈ cs,
            c2 ∈ s3.openCenters ∨ (c2 = j ∧ s3.openCenters.length < P.M) := by
          intro c2 hc2
          rw [hR2.2.2.2.1]
          exact hcands c2 (List.mem_cons_of_mem c hc2)
        rw [btLoop_cons_eq, htc]
        exact ihc s3 (hInv2.transport hR2) (hR.trans hR2) hmem2 hcands2

theorem backtrack_complete {P : Params} {N : ℕ} :
    ∀ (rem done : List ℕ) (s : SearchState), Inv P N done s →
    (∀ c ∈ rem, c < N) → (done ++ rem).Nodup →
    Solvable P rem s → (backtrack P rem s).1.isSome := by
  intro rem
  induction rem with
  | nil =>
    intro done s _ _ _ _
    rw [backtrack_nil_eq]
    rfl
  | cons j rest ih =>
    intro done s hInv hlt hnd hS
    have hjN : j < N := hlt j (List.mem_cons_self j rest)
    have hjdone : j ∉ done := fun h =>
      (List.nodup_append.mp hnd).2.2 h (List.mem_cons_self j rest)
    have hnd2 : ((done ++ [j]) ++ rest).Nodup := by
      rw [List.append_assoc, List.singleton_append]
      exact hnd
    have hlt2 : ∀ c ∈ rest, c < N :=
      fun c hc => hlt c (List.mem_cons_of_mem j hc)
    have hmaster : ∀ t, Inv P N (done ++ [j]) t → ChecksOf P t →
        (((backtrack P rest t).1 = none → Restored t (backtrack P rest t).2) ∧
         (∀ r, (backtrack P rest t).1 = some r →
            GoodResult P N ((done ++ [j]) ++ rest) r)) :=
      fun t hInvT hChkT =>
        backtrack_master rest (done ++ [j]) t hInvT hlt2 hnd2 (fun _ => hChkT)
    have hcomplete : ∀ t, Inv P N (done ++ [j]) t → Solvable P rest t →
        (backtrack P rest t).1.isSome :=
      fun t ht hst => ih (done ++ [j]) t ht hlt2 hnd2 hst
    cases hS with
    | cons _ _ _ i hi hcap hd hl hs =>
      have hcand := mem_candidateList_cases hi
      rw [backtrack_cons_eq]
      exact btLoop_complete hjN hjdone hlt2 hnd2 hcomplete hmaster hInv hcand
        hcap hd hl hs (candidateList P j s.openCenters) s hInv
        (Restored.refl s) hi (fun c hc => mem_candidateList_cases hc)

theorem btLoop_sound {P : Params} {N : ℕ} {done rest : List ℕ} {j : ℕ}
    (hjN : j < N) (hjdone : j ∉ done)
    (hlt : ∀ c ∈ rest, c < N) (hnd : ((done ++ [j]) ++ rest).Nodup)
    (hmaster : ∀ t, Inv P N (done ++ [j]) t → ChecksOf P t →
      (((backtrack P rest t).1 = none → Restored t (backtrack P rest t).2) ∧
       (∀ r, (backtrack P rest t).1 = some r →
          GoodResult P N ((done ++ [j]) ++ rest) r)))
    (hsound : ∀ t, Inv P N (done ++ [j]) t →
      (backtrack P rest t).1.isSome → Solvable P rest t)
    {s : SearchState} (hInv : Inv P N done s) :
    ∀ (cands : List ℕ) (s2 : SearchState), Inv P N done s2 → Restored s s2 →
      (∀ c ∈ cands, c ∈ s2.openCenters ∨ (c = j ∧ s2.openCenters.length < P.M)) →
      (∀ c ∈ cands, c ∈ candidateList P j s.openCenters) →
      (btLoop P (backtrack P rest) j cands s2).1.isSome →
      Solvable P (j :: rest) s := by
  intro cands
  induction cands with
  | nil =>
    intro s2 _ _ _ _ hsome
    simp [btLoop] at hsome
  | cons c cs ihc =>
    intro s2 hInv2 hR hcands hsub hsome
    obtain ⟨tcF, _⟩ := tryCand_master (backtrack P rest) hInv2 hjN hjdone
      (hcands c (List.mem_cons_self c cs)) hmaster
    rcases htc : tryCand P (backtrack P rest) j c s2 with ⟨ro, s3⟩
    cases ro with
    | none =>
      rw [btLoop_cons_eq, htc] at hsome
      have hR2 : Restored s2 s3 := by
        have := tcF (by rw [htc])
        rwa [htc] at this
      have hcands2 : ∀ c2 ∈ cs,
          c2 ∈ s3.openCenters ∨ (c2 = j ∧ s3.openCenters.length < P.M) := by
        intro c2 hc2
        rw [hR2.2.2.2.1]
        exact hcands c2 (List.mem_cons_of_mem c hc2)
      exact ihc s3 (hInv2.transport hR2) (hR.trans hR2) hcands2
        (fun c2 hc2 => hsub c2 (List.mem_cons_of_mem c hc2)) hsome
    | some r =>
      have hi_s : c ∈ candidateList P j s.openCenters :=
        hsub c (List.mem_cons_self c cs)
      rcases hcands c (List.mem_cons_self c cs) with hcopen | ⟨rfl, hM⟩
      · have hopt : openingOf s2 j c = false :=
          openingOf_false_of_open hInv2 hcopen
        have hcops : c ∈ s.openCenters := by
          rw [← hR.2.2.2.1]
          exact hcopen
        have hops : openingOf s j c = false :=
          openingOf_false_of_open hInv hcops
        by_cases hcap2 : s2.residual.getD c 0 < P.pops.getD j 0
        · rw [tryCand_false_capfail hopt hcap2] at htc
          simp at htc
        · by_cases hd2 : dGapPass P (commitStep P j c s2) = true
          · by_cases hl2 : loadGapPass P (commitStep P j c s2) = true
            · rcases hres2 : backtrack P rest (commitStep P j c s2) with
                ⟨ro2, s4⟩
              cases ro2 with
              | none =>
                rw [tryCand_false_recfail hopt hcap2 hd2 hl2 hres2] at htc
                simp at htc
              | some r2 =>
                have hInvCt : Inv P N (done ++ [j])
                    (commitStep P j c s2) :=
                  commit_Inv_open hInv2 hjN hjdone hcopen hcap2
                have hSolCt : Solvable P rest (commitStep P j c s2) :=
                  hsound _ hInvCt (by rw [hres2]; rfl)
                have hcap_s : ¬ s.residual.getD c 0 < P.pops.getD j 0 := by
                  rw [← hR.2.2.2.2.2.2.2 c hcops]
                  exact hcap2
                have hcomR : Restored (commitState P j c s)
                    (commitState P j c s2) :=
                  commitState_Restored hInv hR hjN (Or.inl hcops)
                have hInvCt2 : Inv P N (done ++ [j])
                    (commitState P j c s2) := by
                  rw [commitState_false hopt]
                  exact hInvCt
                have hSolCt2 : Solvable P rest (commitState P j c s2) := by
                  rw [commitState_false hopt]
                  exact hSolCt
                have hSolCs : Solvable P rest (commitState P j c s) :=
                  Solvable_transfer rest (done ++ [j]) _ _ hInvCt2
                    hcomR.symm hlt hnd hSolCt2
                refine Solvable.cons j rest s c hi_s ?_ ?_ ?_ hSolCs
                · rw [hops]
                  simp only [Bool.false_eq_true, if_false]
                  exact hcap_s
                · rw [← dGapPass_of_Restored hcomR, commitState_false hopt]
                  exact hd2
                · rw [← loadGapPass_of_Restored hcomR, commitState_false hopt]
                  exact hl2
            · rw [tryCand_false_lfail hopt hcap2 hd2
                (by simpa using hl2)] at htc
              simp at htc
          · rw [tryCand_false_dfail hopt hcap2 (by simpa using hd2)] at htc
            simp at htc
      · have hopt : openingOf s2 c c = true :=
          openingOf_true_of_new hInv2 hjdone
        have hops : openingOf s c c = true :=
          openingOf_true_of_new hInv hjdone
        have hM_s : s.openCenters.length < P.M := by
          rw [← hR.2.2.2.1]
          exact hM
        by_cases hcap2 : (openStep P c s2).residual.getD c 0
            < P.pops.getD c 0
        · rw [tryCand_true_capfail hopt hcap2] at htc
          simp at htc
        · by_cases hd2 : dGapPass P (commitStep P c c (openStep P c s2)) = true
          · by_cases hl2 : loadGapPass P
                (commitStep P c c (openStep P c s2)) = true
            · rcases hres2 : backtrack P rest
                  (commitStep P c c (openStep P c s2)) with ⟨ro2, s4⟩
              cases ro2 with
              | none =>
                rw [tryCand_true_recfail hopt hcap2 hd2 hl2 hres2] at htc
                simp at htc
              | some r2 =>
                have hInvCt : Inv P N (done ++ [c])
                    (commitStep P c c (openStep P c s2)) :=
                  commit_Inv_new hInv2 hjN hjdone hM hcap2
                have hSolCt : Solvable P rest
                    (commitStep P c c (openStep P c s2)) :=
                  hsound _ hInvCt (by rw [hres2]; rfl)
                have hcap_s : ¬ (openStep P c s).residual.getD c 0
                    < P.pops.getD c 0 := by
                  have e1 : (openStep P c s2).residual.getD c 0 = P.cap :=
                    getD_set_self _ _ _ _
                      (by rw [hR.2.2.2.2.2.2.1, hInv.hreslen]; exact hjN)
                  have e2 : (openStep P c s).residual.getD c 0 = P.cap :=
                    getD_set_self _ _ _ _ (by rw [hInv.hreslen]; exact hjN)
                  rw [e2, ← e1]
                  exact hcap2
                have hcomR : Restored (commitState P c c s)
                    (commitState P c c s2) :=
                  commitState_Restored hInv hR hjN (Or.inr ⟨rfl, hjdone⟩)
                have hInvCt2 : Inv P N (done ++ [c])
                    (commitState P c c s2) := by
                  rw [commitState_true hopt]
                  exact hInvCt
                have hSolCt2 : Solvable P rest (commitState P c c s2) := by
                  rw [commitState_true hopt]
                  exact hSolCt
                have hSolCs : Solvable P rest (commitState P c c s) :=
                  Solvable_transfer rest (done ++ [c]) _ _ hInvCt2
                    hcomR.symm hlt hnd hSolCt2
                refine Solvable.cons c rest s c hi_s ?_ ?_ ?_ hSolCs
                · rw [hops]
                  simp only [if_true]
                  exact hcap_s
                · rw [← dGapPass_of_Restored hcomR, commitState_true hopt]
                  exact hd2
                · rw [← loadGapPass_of_Restored hcomR, commitState_true hopt]
                  exact hl2
            · rw [tryCand_true_lfail hopt hcap2 hd2
                (by simpa using hl2)] at htc
              simp at htc
          · rw [tryCand_true_dfail hopt hcap2 (by simpa using hd2)] at htc
            simp at htc

theorem backtrack_sound {P : Params} {N : ℕ} :
    ∀ (rem done : List ℕ) (s : SearchState), Inv P N done s →
    (∀ c ∈ rem, c < N) → (done ++ rem).Nodup →
    (backtrack P rem s).1.isSome → Solvable P rem s := by
  intro rem
  induction rem with
  | nil =>
    intro done s _ _ _ _
    exact Solvable.nil s
  | cons j rest ih =>
    intro done s hInv hlt hnd hsome
    have hjN : j < N := hlt j (List.mem_cons_self j rest)
    have hjdone : j ∉ done := fun h =>
      (List.nodup_append.mp hnd).2.2 h (List.mem_cons_self j rest)
    have hnd2 : ((done ++ [j]) ++ rest).Nodup := by
      rw [List.append_assoc, List.singleton_append]
      exact hnd
    have hlt2 : ∀ c ∈ rest, c < N :=
      fun c hc => hlt c (List.mem_cons_of_mem j hc)
    have hmaster : ∀ t, Inv P N (done ++ [j]) t → ChecksOf P t →
        (((backtrack P rest t).1 = none → Restored t (backtrack P rest t).2) ∧
         (∀ r, (backtrack P rest t).1 = some r →
            GoodResult P N ((done ++ [j]) ++ rest) r)) :=
      fun t hInvT hChkT =>
        backtrack_master rest (done ++ [j]) t hInvT hlt2 hnd2 (fun _ => hChkT)
    have hsound : ∀ t, Inv P N (done ++ [j]) t →
        (backtrack P rest t).1.isSome → Solvable P rest t :=
      fun t ht hst => ih (done ++ [j]) t ht hlt2 hnd2 hst
    rw [backtrack_cons_eq] at hsome
    exact btLoop_sound hjN hjdone hlt2 hnd2 hmaster hsound hInv
      (candidateList P j s.openCenters) s hInv (Restored.refl s)
      (fun c hc => mem_candidateList_cases hc) (fun c hc => hc) hsome

/-- C8: with the preprocessing guards passed, `build_initial_solution` fails
with the typed `NoFeasibleSolution` outcome exactly when no feasible branch
exists under the fixed search order (the depth-first space is exhausted at
the root with no complete assignment), and whenever a feasible branch does
exist it returns an assignment instead; the failure value is returned
directly, with no internal retry. -/
theorem buildInitialSolution_noFeasible_iff (inst : Inst)
    (dist : ℕ → ℕ → ℚ) (hN : 2 ≤ inst.pops.length) (hM : 1 ≤ inst.M) :
    (buildInitialSolution inst dist = .error .noFeasibleSolution ↔
      ¬ Solvable (paramsOf inst dist) (communityOrder inst.pops)
        (initState inst.pops.length)) ∧
    (Solvable (paramsOf inst dist) (communityOrder inst.pops)
        (initState inst.pops.length) →
      ∃ r, buildInitialSolution inst dist = .ok r) := by
  have hguards : buildInitialSolution inst dist =
      (match backtrack (paramsOf inst dist) (communityOrder inst.pops)
        (initState inst.pops.length) with
      | (some r, _) => Except.ok r
      | (none, _) => Except.error BuildError.noFeasibleSolution) := by
    simp only [buildInitialSolution]
    rw [if_neg (by omega : ¬ inst.pops.length = 0),
      if_neg (by omega : ¬ inst.M = 0),
      if_neg (by omega : ¬ inst.pops.length < 2)]
  have hInv0 := Inv_initState (paramsOf inst dist) inst.pops.length
  have hlt0 : ∀ c ∈ communityOrder inst.pops, c < inst.pops.length :=
    fun c hc => mem_communityOrder.mp hc
  have hnd0 : (([] : List ℕ) ++ communityOrder inst.pops).Nodup := by
    simpa using communityOrder_nodup inst.pops
  constructor
  · constructor
    · intro herr hSolv
      have hsome := backtrack_complete (communityOrder inst.pops) []
        (initState inst.pops.length) hInv0 hlt0 hnd0 hSolv
      rw [hguards] at herr
      rcases hbt : backtrack (paramsOf inst dist) (communityOrder inst.pops)
          (initState inst.pops.length) with ⟨ro, s2⟩
      rw [hbt] at herr hsome
      cases ro with
      | some r => exact Except.noConfusion herr
      | none => simp at hsome
    · intro hnot
      rw [hguards]
      rcases hbt : backtrack (paramsOf inst dist) (communityOrder inst.pops)
          (initState inst.pops.length) with ⟨ro, s2⟩
      cases ro with
      | some r =>
        exact absurd (backtrack_sound (communityOrder inst.pops) []
          (initState inst.pops.length) hInv0 hlt0 hnd0
          (by rw [hbt]; rfl)) hnot
      | none => rfl
  · intro hSolv
    have hsome := backtrack_complete (communityOrder inst.pops) []
      (initState inst.pops.length) hInv0 hlt0 hnd0 hSolv
    rw [hguards]
    rcases hbt : backtrack (paramsOf inst dist) (communityOrder inst.pops)
        (initState inst.pops.length) with ⟨ro, s2⟩
    rw [hbt] at hsome
    cases ro with
    | some r => exact ⟨r, rfl⟩
    | none => simp at hsome

/-- C8 witness: the characterization applied to the capacity-infeasible
two-community instance. -/
theorem buildInitialSolution_noFeasible_iff_witness :
    (buildInitialSolution instC5 distZero = .error .noFeasibleSolution ↔
      ¬ Solvable (paramsOf instC5 distZero) (communityOrder instC5.pops)
        (initState instC5.pops.length)) ∧
    (Solvable (paramsOf instC5 distZero) (communityOrder instC5.pops)
        (initState instC5.pops.length) →
      ∃ r, buildInitialSolution instC5 distZero = .ok r) :=
  buildInitialSolution_noFeasible_iff instC5 distZero (by decide) (by decide)

end HealthCenter
